import Mathlib

/-!
Verification of the vsort sorting library (src/vsort.c, src/vsort.h).

The int arrays of the C code are modelled as `List Int`, index reads as
`getD i 0` (every verified access is in bounds), in-place writes as
`List.set`, and the C loops as structurally recursive functions that carry
the mutable locals explicitly.  Machine arithmetic that can wrap
(the unsigned 32-bit casts inside `radix_sort_int`) is modelled with
explicit `% 2^32`.
-/

set_option maxHeartbeats 1600000

namespace VSort

/-- Read element `i` of an int array modelled as a `List Int`
(0 when out of range; all verified accesses are in range). -/
def getI (l : List Int) (i : Nat) : Int := l.getD i 0

/-- Positions `[low, m)` of `l` are in non-decreasing order. -/
def sortedBelow (l : List Int) (low m : Nat) : Prop :=
  ∀ i j, low ≤ i → i < j → j < m → getI l i ≤ getI l j

/-- Positions `[lo, hi]` of `l` are in non-decreasing order. -/
def sortedSlice (l : List Int) (lo hi : Nat) : Prop := sortedBelow l lo (hi + 1)

theorem getI_eq_getElem (l : List Int) (i : Nat) (h : i < l.length) :
    getI l i = l[i] := by
  simp [getI, List.getD_eq_getElem?_getD, List.getElem?_eq_getElem h]

theorem getI_set_self (l : List Int) (i : Nat) (v : Int) (h : i < l.length) :
    getI (l.set i v) i = v := by
  rw [getI_eq_getElem _ _ (by simpa using h)]
  simp

theorem getI_set_ne (l : List Int) (i k : Nat) (v : Int) (hne : i ≠ k) :
    getI (l.set i v) k = getI l k := by
  by_cases hk : k < l.length
  · rw [getI_eq_getElem _ _ (by simpa using hk), getI_eq_getElem _ _ hk]
    exact List.getElem_set_ne hne _
  · simp only [getI, List.getD_eq_getElem?_getD]
    rw [List.getElem?_eq_none (by simpa using not_lt.mp hk),
      List.getElem?_eq_none (by simpa using not_lt.mp hk)]

theorem set_getI_self (l : List Int) (i : Nat) : l.set i (getI l i) = l := by
  induction l generalizing i with
  | nil => simp
  | cons x xs ih =>
    cases i with
    | zero => simp [getI]
    | succ n => simpa [getI, List.set] using ih n

/-- Auxiliary swap permutation: replacing position `k` of `xs` by `x` and
moving the old `xs[k]` to the front permutes `x :: xs`. -/
theorem cons_set_perm (x y : Int) :
    ∀ (k : Nat) (l : List Int), k < l.length → (x :: l.set k y).Perm (y :: l.set k x) := by
  intro k
  induction k with
  | zero =>
    intro l hl
    cases l with
    | nil => simp at hl
    | cons z zs => simpa using List.Perm.swap y x zs
  | succ n ih =>
    intro l hl
    cases l with
    | nil => simp at hl
    | cons z zs =>
      have h1 : (x :: z :: zs.set n y).Perm (z :: x :: zs.set n y) := List.Perm.swap z x _
      have h2 : (x :: zs.set n y).Perm (y :: zs.set n x) := ih zs (by simpa using hl)
      have h3 : (z :: x :: zs.set n y).Perm (z :: y :: zs.set n x) := h2.cons z
      have h4 : (z :: y :: zs.set n x).Perm (y :: z :: zs.set n x) := List.Perm.swap y z _
      simpa [List.set] using (h1.trans h3).trans h4

theorem perm_set_set (l : List Int) (i j : Nat) (x y : Int)
    (hi : i < l.length) (hj : j < l.length) (hij : i ≠ j) :
    ((l.set i x).set j y).Perm ((l.set i y).set j x) := by
  induction l generalizing i j with
  | nil => simp at hi
  | cons z zs ih =>
    cases i with
    | zero =>
      cases j with
      | zero => exact absurd rfl hij
      | succ n =>
        simpa [List.set] using cons_set_perm x y n zs (by simpa using hj)
    | succ m =>
      cases j with
      | zero =>
        have := cons_set_perm y x m zs (by simpa using hi)
        simpa [List.set] using this
      | succ n =>
        have := ih m n (by simpa using hi) (by simpa using hj) (by omega)
        simpa [List.set] using this.cons z

/-- In-place swap of two positions (`swap_int` acting on array slots). -/
def swapIdx (l : List Int) (i j : Nat) : List Int :=
  (l.set i (getI l j)).set j (getI l i)

theorem swapIdx_perm (l : List Int) (i j : Nat) (hi : i < l.length) (hj : j < l.length) :
    (swapIdx l i j).Perm l := by
  by_cases hij : i = j
  · subst hij
    simp [swapIdx, List.set_set, set_getI_self]
  · have h := perm_set_set l i j (getI l j) (getI l i) hi hj hij
    simpa [swapIdx, set_getI_self] using h

theorem swapIdx_length (l : List Int) (i j : Nat) :
    (swapIdx l i j).length = l.length := by simp [swapIdx]

theorem getI_swapIdx_fst (l : List Int) (i j : Nat) (hi : i < l.length) (hij : i ≠ j) :
    getI (swapIdx l i j) i = getI l j := by
  rw [swapIdx, getI_set_ne _ _ _ _ (Ne.symm hij), getI_set_self _ _ _ hi]

theorem getI_swapIdx_snd (l : List Int) (i j : Nat) (hj : j < l.length) :
    getI (swapIdx l i j) j = getI l i := by
  rw [swapIdx, getI_set_self]
  simpa using hj

theorem getI_swapIdx_other (l : List Int) (i j k : Nat) (h1 : k ≠ i) (h2 : k ≠ j) :
    getI (swapIdx l i j) k = getI l k := by
  rw [swapIdx, getI_set_ne _ _ _ _ (Ne.symm h2), getI_set_ne _ _ _ _ (Ne.symm h1)]

/-- A whole list is sorted iff every index pair is ordered. -/
theorem sorted_iff_getI (l : List Int) :
    l.Sorted (· ≤ ·) ↔ ∀ i j, i < j → j < l.length → getI l i ≤ getI l j := by
  rw [List.Sorted, List.pairwise_iff_getElem]
  constructor
  · intro h i j hij hj
    have hi : i < l.length := lt_trans hij hj
    rw [getI_eq_getElem _ _ hi, getI_eq_getElem _ _ hj]
    exact h i j hi hj hij
  · intro h i j hi hj hij
    have := h i j hij hj
    rwa [getI_eq_getElem _ _ hi, getI_eq_getElem _ _ hj] at this

/-! ### Insertion sort (`insertion_sort_int`)

The inner `while (j >= low && *pos > key)` shift loop; the argument `m`
plays the role of `j + 1`, the slot the next write goes to. -/

def insertLoop (key : Int) (low : Nat) : List Int → Nat → List Int
  | arr, 0 => arr.set 0 key
  | arr, m + 1 =>
    if low ≤ m ∧ key < getI arr m then
      insertLoop key low (arr.set (m + 1) (getI arr m)) m
    else arr.set (m + 1) key

/-- The outer `for (i = low + 1; i <= high; i++)` loop; `c` counts the
remaining iterations. -/
def insOuter (low : Nat) : List Int → Nat → Nat → List Int
  | arr, _, 0 => arr
  | arr, i, c + 1 => insOuter low (insertLoop (getI arr i) low arr i) (i + 1) c

/-- `insertion_sort_int(arr, low, high)` from src/vsort.c. -/
def insertion_sort_int (arr : List Int) (low high : Nat) : List Int :=
  insOuter low arr (low + 1) (high - low)

theorem insertLoop_length (key : Int) (low : Nat) :
    ∀ (m : Nat) (arr : List Int), (insertLoop key low arr m).length = arr.length := by
  intro m
  induction m with
  | zero => intro arr; simp [insertLoop]
  | succ n ih =>
    intro arr
    rw [insertLoop]
    split
    · rw [ih]; simp
    · simp

theorem insertLoop_out (key : Int) (low : Nat) :
    ∀ (m : Nat) (arr : List Int) (k : Nat), low ≤ m → (k < low ∨ m < k) →
      getI (insertLoop key low arr m) k = getI arr k := by
  intro m
  induction m with
  | zero =>
    intro arr k hlm hk
    have : k ≠ 0 := by omega
    simpa [insertLoop] using getI_set_ne arr 0 k key (by omega)
  | succ n ih =>
    intro arr k hlm hk
    rw [insertLoop]
    split <;> rename_i h
    · rw [ih _ k h.1 (by omega), getI_set_ne _ _ _ _ (by omega)]
    · exact getI_set_ne _ _ _ _ (by omega)

theorem insertLoop_perm (key : Int) (low : Nat) :
    ∀ (m : Nat) (arr : List Int), m < arr.length →
      (insertLoop key low arr m).Perm (arr.set m key) := by
  intro m
  induction m with
  | zero => intro arr _; simp [insertLoop]
  | succ n ih =>
    intro arr hm
    rw [insertLoop]
    split <;> rename_i h
    · have h1 := ih (arr.set (n + 1) (getI arr n)) (by simp; omega)
      have h2 : ((arr.set (n + 1) (getI arr n)).set n key).Perm
          ((arr.set (n + 1) key).set n (getI arr n)) := by
        have := perm_set_set arr (n + 1) n (getI arr n) key hm (by omega) (by omega)
        exact this
      have h3 : (arr.set (n + 1) key).set n (getI arr n) =
          (arr.set n (getI arr n)).set (n + 1) key := List.set_comm _ _ _ (by omega)
      have h4 : (arr.set n (getI arr n)).set (n + 1) key = arr.set (n + 1) key := by
        rw [set_getI_self]
      exact h1.trans (h2.trans (by rw [h3, h4]))
    · exact List.Perm.refl _

theorem insertLoop_spec (key : Int) (low : Nat) :
    ∀ (m : Nat) (arr : List Int), low ≤ m → m < arr.length →
      sortedBelow arr low m →
      sortedBelow (insertLoop key low arr m) low (m + 1) ∧
      (∀ k, low ≤ k → k ≤ m →
        getI (insertLoop key low arr m) k = key ∨
        ∃ k', low ≤ k' ∧ k' < m ∧ getI (insertLoop key low arr m) k = getI arr k') := by
  intro m
  induction m with
  | zero =>
    intro arr hlm hm _
    constructor
    · intro i j hi hij hj
      omega
    · intro k hk1 hk2
      have hk0 : k = 0 := by omega
      subst hk0
      exact Or.inl (by simpa [insertLoop] using getI_set_self arr 0 key hm)
  | succ n ih =>
    intro arr hlm hm hsorted
    rw [insertLoop]
    split <;> rename_i h
    · -- shift branch: key < arr[n], recurse at n on arr.set (n+1) (arr[n])
      have hlen : n < (arr.set (n + 1) (getI arr n)).length := by simp; omega
      have hpre : sortedBelow (arr.set (n + 1) (getI arr n)) low n := by
        intro i j hi hij hj
        rw [getI_set_ne _ _ _ _ (by omega), getI_set_ne _ _ _ _ (by omega)]
        exact hsorted i j hi hij (by omega)
      obtain ⟨ihs, ihv⟩ := ih (arr.set (n + 1) (getI arr n)) h.1 hlen hpre
      have htop : getI (insertLoop key low (arr.set (n + 1) (getI arr n)) n) (n + 1)
          = getI arr n := by
        rw [insertLoop_out key low n _ _ h.1 (by omega), getI_set_self _ _ _ hm]
      constructor
      · intro i j hi hij hj
        by_cases hjn : j = n + 1
        · subst hjn
          rw [htop]
          rcases ihv i hi (by omega) with hv | ⟨k', hk1', hk2', hv⟩
          · rw [hv]; exact le_of_lt h.2
          · rw [hv, getI_set_ne _ _ _ _ (by omega)]
            exact hsorted k' n hk1' (by omega) (by omega)
        · exact ihs i j hi hij (by omega)
      · intro k hk1 hk2
        by_cases hkn : k = n + 1
        · subst hkn
          rw [htop]
          exact Or.inr ⟨n, h.1, by omega, rfl⟩
        · rcases ihv k hk1 (by omega) with hv | ⟨k', hk1', hk2', hv⟩
          · exact Or.inl hv
          · rw [getI_set_ne _ _ _ _ (by omega)] at hv
            exact Or.inr ⟨k', hk1', by omega, hv⟩
    · -- stop branch: write key at n+1
      push_neg at h
      constructor
      · intro i j hi hij hj
        by_cases hjn : j = n + 1
        · subst hjn
          rw [getI_set_self _ _ _ hm]
          by_cases hlow : low ≤ n
          · have hkey : getI arr n ≤ key := h hlow
            rw [getI_set_ne _ _ _ _ (by omega)]
            rcases Nat.lt_or_ge i n with hin | hin
            · exact le_trans (hsorted i n hi hin (by omega)) hkey
            · have : i = n := by omega
              subst this; exact hkey
          · omega
        · rw [getI_set_ne _ _ _ _ (by omega), getI_set_ne _ _ _ _ (by omega)]
          exact hsorted i j hi hij (by omega)
      · intro k hk1 hk2
        by_cases hkn : k = n + 1
        · subst hkn
          exact Or.inl (getI_set_self _ _ _ hm)
        · rw [getI_set_ne _ _ _ _ (by omega)]
          exact Or.inr ⟨k, hk1, by omega, rfl⟩

theorem insOuter_spec (low : Nat) :
    ∀ (c : Nat) (arr : List Int) (i : Nat) (high : Nat),
      low < i → i + c = high + 1 → high < arr.length → sortedBelow arr low i →
      (insOuter low arr i c).length = arr.length ∧
      (insOuter low arr i c).Perm arr ∧
      (∀ k, k < low ∨ high < k → getI (insOuter low arr i c) k = getI arr k) ∧
      sortedBelow (insOuter low arr i c) low (high + 1) := by
  intro c
  induction c with
  | zero =>
    intro arr i high hlowi hic hhigh hsorted
    have : i = high + 1 := by omega
    subst this
    exact ⟨rfl, List.Perm.refl _, fun k _ => rfl, hsorted⟩
  | succ c ih =>
    intro arr i high hlowi hic hhigh hsorted
    rw [insOuter]
    set key := getI arr i with hkey
    have hi : i < arr.length := by omega
    have hpre : sortedBelow arr low i := hsorted
    obtain ⟨hs1, _⟩ := insertLoop_spec key low i arr (by omega) hi hpre
    have hlen1 : (insertLoop key low arr i).length = arr.length :=
      insertLoop_length key low i arr
    have hperm1 : (insertLoop key low arr i).Perm arr := by
      have := insertLoop_perm key low i arr hi
      rwa [hkey, set_getI_self] at this
    obtain ⟨l1, p1, o1, s1⟩ := ih (insertLoop key low arr i) (i + 1) high
      (by omega) (by omega) (by omega) (by
        intro a b ha hab hb
        exact hs1 a b ha hab (by omega))
    refine ⟨by rw [l1, hlen1], p1.trans hperm1, ?_, s1⟩
    intro k hk
    rw [o1 k hk, insertLoop_out key low i arr k (by omega) (by omega)]

/-- Full specification of `insertion_sort_int`: length preserved, a
permutation, untouched outside `[low, high]`, and `[low, high]` sorted. -/
theorem insertion_sort_int_spec (arr : List Int) (low high : Nat)
    (hh : high < arr.length) :
    (insertion_sort_int arr low high).length = arr.length ∧
    (insertion_sort_int arr low high).Perm arr ∧
    (∀ k, k < low ∨ high < k → getI (insertion_sort_int arr low high) k = getI arr k) ∧
    sortedSlice (insertion_sort_int arr low high) low high := by
  rcases Nat.lt_or_ge low high with hlh | hlh
  · have := insOuter_spec low (high - low) arr (low + 1) high (by omega) (by omega) hh
      (by intro i j hi hij hj; omega)
    simpa [insertion_sort_int, sortedSlice] using this
  · have hc : high - low = 0 := by omega
    rw [insertion_sort_int, hc, insOuter]
    exact ⟨rfl, List.Perm.refl _, fun k _ => rfl, by intro i j hi hij hj; omega⟩

/-! ### Slices -/

/-- The `n`-element slice of `l` starting at `lo`. -/
def segN (l : List Int) (lo n : Nat) : List Int := (l.drop lo).take n

theorem segN_length (l : List Int) (lo n : Nat) (h : lo + n ≤ l.length) :
    (segN l lo n).length = n := by
  simp [segN]
  omega

theorem getI_segN (l : List Int) (lo n idx : Nat) (h1 : idx < n) (h2 : lo + n ≤ l.length) :
    getI (segN l lo n) idx = getI l (lo + idx) := by
  have hd : idx < (l.drop lo).length := by simp; omega
  have hl : lo + idx < l.length := by omega
  rw [getI_eq_getElem _ _ (by rw [segN_length _ _ _ h2]; omega), getI_eq_getElem _ _ hl]
  simp only [segN, List.getElem_take, List.getElem_drop]

theorem segN_decomp (l : List Int) (lo n : Nat) (h : lo + n ≤ l.length) :
    l = l.take lo ++ segN l lo n ++ l.drop (lo + n) := by
  rw [segN, List.append_assoc, List.drop_take_append_drop, List.take_append_drop]

theorem seg_perm_of_perm (arr1 arr : List Int) (lo n : Nat)
    (hp : arr1.Perm arr) (hl : arr1.length = arr.length) (hb : lo + n ≤ arr.length)
    (hout : ∀ k, k < lo ∨ lo + n ≤ k → getI arr1 k = getI arr k) :
    (segN arr1 lo n).Perm (segN arr lo n) := by
  have htake : arr1.take lo = arr.take lo := by
    apply List.ext_getElem
    · simp; omega
    · intro i h1 h2
      rw [List.getElem_take, List.getElem_take]
      rw [← getI_eq_getElem _ _ (by simp at h1; omega), ← getI_eq_getElem _ _ (by simp at h2; omega)]
      exact hout i (Or.inl (by simp at h1; omega))
  have hdrop : arr1.drop (lo + n) = arr.drop (lo + n) := by
    apply List.ext_getElem
    · simp; omega
    · intro i h1 h2
      rw [List.getElem_drop, List.getElem_drop]
      rw [← getI_eq_getElem _ _ (by simp at h1; omega), ← getI_eq_getElem _ _ (by simp at h2; omega)]
      exact hout (lo + n + i) (Or.inr (by omega))
  have hd1 := segN_decomp arr1 lo n (by omega)
  have hd2 := segN_decomp arr lo n hb
  have hp' : (arr1.take lo ++ (segN arr1 lo n ++ arr1.drop (lo + n))).Perm
      (arr.take lo ++ (segN arr lo n ++ arr.drop (lo + n))) := by
    rw [← List.append_assoc, ← List.append_assoc, ← hd1, ← hd2]
    exact hp
  rw [htake, hdrop] at hp'
  have h1 := (List.perm_append_left_iff (arr.take lo)).mp hp'
  exact (List.perm_append_right_iff (arr.drop (lo + n))).mp h1

/-- Values inside a window of a length-preserving, outside-fixing permutation
come from the same window of the original array. -/
theorem window_vals (arr1 arr : List Int) (lo hi : Nat)
    (hp : arr1.Perm arr) (hl : arr1.length = arr.length) (hb : hi < arr.length)
    (hout : ∀ k, k < lo ∨ hi < k → getI arr1 k = getI arr k) (hlh : lo ≤ hi) :
    ∀ i, lo ≤ i → i ≤ hi → ∃ k, lo ≤ k ∧ k ≤ hi ∧ getI arr1 i = getI arr k := by
  intro i hi1 hi2
  set n := hi + 1 - lo with hn
  have hseg := seg_perm_of_perm arr1 arr lo n hp hl (by omega)
    (by intro k hk; exact hout k (by omega))
  have hik : i - lo < n := by omega
  have hlen1 : (segN arr1 lo n).length = n := segN_length _ _ _ (by rw [hl]; omega)
  have hlen2 : (segN arr lo n).length = n := segN_length _ _ _ (by omega)
  have hv : getI arr1 i = getI (segN arr1 lo n) (i - lo) := by
    rw [getI_segN arr1 lo n (i - lo) hik (by rw [hl]; omega)]
    congr 1
    omega
  have hmem : getI (segN arr1 lo n) (i - lo) ∈ segN arr1 lo n := by
    rw [getI_eq_getElem _ _ (by rw [hlen1]; omega)]
    exact List.getElem_mem _
  have hmem2 : getI (segN arr1 lo n) (i - lo) ∈ segN arr lo n := hseg.subset hmem
  rw [List.mem_iff_getElem] at hmem2
  obtain ⟨idx, hidx, hval⟩ := hmem2
  rw [hlen2] at hidx
  refine ⟨lo + idx, by omega, by omega, ?_⟩
  rw [hv, ← getI_segN arr lo n idx hidx (by omega), ← hval]
  rw [getI_eq_getElem _ _ (by rw [hlen2]; omega)]

/-! ### Lomuto partition with median-of-three pivot (`partition_int`) -/

/-- The `for (j = low; j < high; j++)` Lomuto scan; `ii` plays the role of
`i + 1` (the C scan index `i` starts at `low - 1`), `c` counts the remaining
iterations (`high - j`). -/
def partLoop (pivot : Int) : List Int → Nat → Nat → Nat → List Int × Nat
  | arr, ii, _, 0 => (arr, ii)
  | arr, ii, j, c + 1 =>
    if getI arr j ≤ pivot then
      partLoop pivot (if ii = j then arr else swapIdx arr ii j) (ii + 1) (j + 1) c
    else partLoop pivot arr ii (j + 1) c

/-- `partition_int(arr, low, high)`: median-of-three pivot selection followed
by the Lomuto scan; returns the partitioned array and the pivot position. -/
def partition_int (arr : List Int) (low high : Nat) : List Int × Nat :=
  let mid := low + (high - low) / 2
  let a1 := if getI arr mid < getI arr low then swapIdx arr low mid else arr
  let a2 := if getI a1 high < getI a1 mid then swapIdx a1 mid high else a1
  let a3 := if getI a2 mid < getI a2 low then swapIdx a2 low mid else a2
  let a4 := swapIdx a3 mid high
  let pr := partLoop (getI a4 high) a4 low low (high - low)
  (swapIdx pr.1 pr.2 high, pr.2)

theorem partLoop_spec (pivot : Int) :
    ∀ (c : Nat) (arr : List Int) (ii j : Nat),
      ii ≤ j → j + c < arr.length →
      (∀ k, ii ≤ k → k < j → pivot < getI arr k) →
      (partLoop pivot arr ii j c).1.length = arr.length ∧
      (partLoop pivot arr ii j c).1.Perm arr ∧
      (∀ k, k < ii ∨ j + c ≤ k → getI (partLoop pivot arr ii j c).1 k = getI arr k) ∧
      ii ≤ (partLoop pivot arr ii j c).2 ∧ (partLoop pivot arr ii j c).2 ≤ j + c ∧
      (∀ k, ii ≤ k → k < (partLoop pivot arr ii j c).2 →
        getI (partLoop pivot arr ii j c).1 k ≤ pivot) ∧
      (∀ k, (partLoop pivot arr ii j c).2 ≤ k → k < j + c →
        pivot < getI (partLoop pivot arr ii j c).1 k) := by
  intro c
  induction c with
  | zero =>
    intro arr ii j hij hlen hgt
    rw [partLoop]
    exact ⟨rfl, List.Perm.refl _, fun k _ => rfl, le_refl _, by omega,
      fun k h1 h2 => by omega, fun k h1 h2 => hgt k (by omega) (by omega)⟩
  | succ c ih =>
    intro arr ii j hij hlen hgt
    rw [partLoop]
    split <;> rename_i hcmp
    · -- arr[j] ≤ pivot: (conditionally) swap ii and j, advance both
      set arr' := if ii = j then arr else swapIdx arr ii j with harr'
      have hlen' : arr'.length = arr.length := by
        rw [harr']; split
        · rfl
        · exact swapIdx_length _ _ _
      have hii : getI arr' ii = getI arr j := by
        rw [harr']; split <;> rename_i hij
        · rw [hij]
        · exact getI_swapIdx_fst arr ii j (by omega) hij
      have hother : ∀ k, k ≠ ii → k ≠ j → getI arr' k = getI arr k := by
        intro k h1 h2
        rw [harr']; split
        · rfl
        · exact getI_swapIdx_other arr ii j k h1 h2
      have hjval : ii < j → pivot < getI arr' j := by
        intro hlt
        have : getI arr' j = getI arr ii := by
          rw [harr']
          split <;> rename_i hij
          · omega
          · exact getI_swapIdx_snd arr ii j (by omega)
        rw [this]
        exact hgt ii (le_refl _) hlt
      have hgt' : ∀ k, ii + 1 ≤ k → k < j + 1 → pivot < getI arr' k := by
        intro k h1 h2
        rcases Nat.lt_or_ge k j with hk | hk
        · rw [hother k (by omega) (by omega)]
          exact hgt k (by omega) hk
        · have : k = j := by omega
          subst this
          exact hjval (by omega)
      have hperm' : arr'.Perm arr := by
        rw [harr']; split
        · exact List.Perm.refl _
        · exact swapIdx_perm arr ii j (by omega) (by omega)
      obtain ⟨l1, p1, o1, b1, b2, le1, gt1⟩ :=
        ih arr' (ii + 1) (j + 1) (by omega) (by rw [hlen']; omega) hgt'
      refine ⟨l1.trans hlen', p1.trans hperm', ?_, by omega, by omega, ?_, ?_⟩
      · intro k hk
        rw [o1 k (by omega), hother k (by omega) (by omega)]
      · intro k h1 h2
        rcases Nat.lt_or_ge k (ii + 1) with hk | hk
        · have hkii : k = ii := by omega
          subst hkii
          rw [o1 k (by omega), hii]
          exact hcmp
        · exact le1 k hk h2
      · intro k h1 h2
        exact gt1 k h1 (by omega)
    · -- pivot < arr[j]: just advance j
      have hgt' : ∀ k, ii ≤ k → k < j + 1 → pivot < getI arr k := by
        intro k h1 h2
        rcases Nat.lt_or_ge k j with hk | hk
        · exact hgt k h1 hk
        · have : k = j := by omega
          subst this
          exact lt_of_not_le hcmp
      obtain ⟨l1, p1, o1, b1, b2, le1, gt1⟩ := ih arr ii (j + 1) (by omega) (by omega) hgt'
      exact ⟨l1, p1, fun k hk => o1 k (by omega), by omega, by omega, le1,
        fun k h1 h2 => gt1 k h1 (by omega)⟩

theorem condSwap_facts (arr : List Int) (c : Prop) [Decidable c] (i j low high : Nat)
    (hi1 : low ≤ i) (hi2 : i ≤ high) (hj1 : low ≤ j) (hj2 : j ≤ high)
    (hh : high < arr.length) :
    (if c then swapIdx arr i j else arr).length = arr.length ∧
    (if c then swapIdx arr i j else arr).Perm arr ∧
    (∀ k, k < low ∨ high < k → getI (if c then swapIdx arr i j else arr) k = getI arr k) := by
  split
  · exact ⟨swapIdx_length _ _ _, swapIdx_perm _ _ _ (by omega) (by omega),
      fun k hk => getI_swapIdx_other _ _ _ _ (by omega) (by omega)⟩
  · exact ⟨rfl, List.Perm.refl _, fun k _ => rfl⟩

theorem partition_int_spec (arr : List Int) (low high : Nat)
    (hlh : low < high) (hh : high < arr.length) :
    (partition_int arr low high).1.length = arr.length ∧
    (partition_int arr low high).1.Perm arr ∧
    (∀ k, k < low ∨ high < k → getI (partition_int arr low high).1 k = getI arr k) ∧
    low ≤ (partition_int arr low high).2 ∧ (partition_int arr low high).2 ≤ high ∧
    (∀ k, low ≤ k → k < (partition_int arr low high).2 →
      getI (partition_int arr low high).1 k ≤
        getI (partition_int arr low high).1 (partition_int arr low high).2) ∧
    (∀ k, (partition_int arr low high).2 < k → k ≤ high →
      getI (partition_int arr low high).1 (partition_int arr low high).2 ≤
        getI (partition_int arr low high).1 k) := by
  set mid := low + (high - low) / 2 with hmid
  have hmid2 : mid ≤ high := by omega
  obtain ⟨L1, P1, O1⟩ := condSwap_facts arr (getI arr mid < getI arr low) low mid low high
    (le_refl _) (by omega) (by omega) hmid2 hh
  set a1 := if getI arr mid < getI arr low then swapIdx arr low mid else arr with ha1
  obtain ⟨L2, P2, O2⟩ := condSwap_facts a1 (getI a1 high < getI a1 mid) mid high low high
    (by omega) hmid2 (by omega) (le_refl _) (by rw [L1]; omega)
  set a2 := if getI a1 high < getI a1 mid then swapIdx a1 mid high else a1 with ha2
  obtain ⟨L3, P3, O3⟩ := condSwap_facts a2 (getI a2 mid < getI a2 low) low mid low high
    (le_refl _) (by omega) (by omega) hmid2 (by rw [L2, L1]; omega)
  set a3 := if getI a2 mid < getI a2 low then swapIdx a2 low mid else a2 with ha3
  set a4 := swapIdx a3 mid high with ha4
  have L4 : a4.length = arr.length := by
    rw [ha4, swapIdx_length, L3, L2, L1]
  have P4 : a4.Perm arr :=
    ((swapIdx_perm a3 mid high (by omega) (by omega)).trans P3).trans (P2.trans P1)
  have O4 : ∀ k, k < low ∨ high < k → getI a4 k = getI arr k := by
    intro k hk
    rw [ha4, getI_swapIdx_other _ _ _ _ (by omega) (by omega), O3 k hk, O2 k hk, O1 k hk]
  set pivot := getI a4 high with hpivot
  obtain ⟨l5, p5, o5, b5a, b5b, le5, gt5⟩ := partLoop_spec pivot (high - low) a4 low low
    (le_refl _) (by omega) (by intro k h1 h2; omega)
  set pr := partLoop pivot a4 low low (high - low) with hpr
  have hpe : partition_int arr low high = (swapIdx pr.1 pr.2 high, pr.2) := rfl
  have hlow_hl : low + (high - low) = high := by omega
  rw [hlow_hl] at o5 b5b gt5
  have hL : pr.1.length = arr.length := by rw [l5, L4]
  have hprh : getI pr.1 high = pivot := o5 high (Or.inr (le_refl _))
  have hfin_len : (swapIdx pr.1 pr.2 high).length = arr.length := by
    rw [swapIdx_length, hL]
  have hfin_perm : (swapIdx pr.1 pr.2 high).Perm arr :=
    (swapIdx_perm pr.1 pr.2 high (by omega) (by omega)).trans (p5.trans P4)
  have hp_val : getI (swapIdx pr.1 pr.2 high) pr.2 = pivot := by
    by_cases hph : pr.2 = high
    · rw [hph, getI_swapIdx_snd _ _ _ (by omega), ← hph, hph, hprh]
    · rw [getI_swapIdx_fst _ _ _ (by omega) hph, hprh]
  rw [hpe]
  refine ⟨hfin_len, hfin_perm, ?_, b5a, b5b, ?_, ?_⟩
  · intro k hk
    rw [getI_swapIdx_other _ _ _ _ (by omega) (by omega), o5 k (by omega), O4 k hk]
  · intro k h1 h2
    rw [hp_val, getI_swapIdx_other _ _ _ _ (by omega) (by omega)]
    exact le5 k h1 h2
  · intro k h1 h2
    rw [hp_val]
    rcases Nat.lt_or_ge k high with hk | hk
    · rw [getI_swapIdx_other _ _ _ _ (by omega) (by omega)]
      exact le_of_lt (gt5 k (by omega) hk)
    · have hkh : k = high := by omega
      subst hkh
      rw [getI_swapIdx_snd _ _ _ (by omega)]
      exact le_of_lt (gt5 pr.2 (le_refl _) (by omega))

/-! ### Iterative quicksort (`quicksort_int`) -/

/-- The tuning-threshold record `vsort_thresholds_t`. -/
structure VsortThresholds where
  insertion_threshold : Nat
  vector_threshold : Nat
  parallel_threshold : Nat
  radix_threshold : Nat
  cache_optimal_elements : Nat

/-- The static initializer of the global `thresholds` variable. -/
def defaultThresholds : VsortThresholds :=
  ⟨16, 64, 100000, 1000000, 16384⟩

/-- Sum of the pending range sizes: termination measure of the stack loop. -/
def qsMeasure (st : List (Nat × Nat)) : Nat :=
  (st.map (fun r => r.2 + 1 - r.1)).sum

theorem qsMeasure_cons (a b : Nat) (rest : List (Nat × Nat)) :
    qsMeasure ((a, b) :: rest) = (b + 1 - a) + qsMeasure rest := by
  simp [qsMeasure]

/-- Push the two sub-ranges produced by a partition, larger-first exactly as
the C code does (right `(p+1, high)` first, then left `(low, p-1)`), so the
left range is popped first.  The `p - 1 > low` test is `low < p - 1` in
`Nat`, which agrees with the C `int` comparison for every `p ≥ 0`. -/
def qsPush (low high p : Nat) (rest : List (Nat × Nat)) : List (Nat × Nat) :=
  let st1 := if p + 1 < high then (p + 1, high) :: rest else rest
  if low < p - 1 then (low, p - 1) :: st1 else st1

/-- One step of `quicksort_int`'s `while (top >= 0)` loop, fuelled.  A popped
range smaller than `insertion_threshold` goes to insertion sort; otherwise it
is partitioned; if the stack is within 4 ints of its 2048-int capacity
(`rest.length ≥ 1023` pairs after the pop) the whole range is finished by
insertion sort instead of pushing. -/
def qsLoop (t : VsortThresholds) : Nat → List Int → List (Nat × Nat) → List Int
  | 0, arr, _ => arr
  | _ + 1, arr, [] => arr
  | fuel + 1, arr, (low, high) :: rest =>
    if high + 1 - low < t.insertion_threshold then
      qsLoop t fuel (insertion_sort_int arr low high) rest
    else if 1023 ≤ rest.length then
      qsLoop t fuel (insertion_sort_int (partition_int arr low high).1 low high) rest
    else
      qsLoop t fuel (partition_int arr low high).1
        (qsPush low high (partition_int arr low high).2 rest)

/-- `quicksort_int(arr, low, high)`: `stackAllocOk` models whether the
`malloc` of the explicit stack succeeds; on failure the code falls back to
insertion sort. -/
def quicksort_intA (t : VsortThresholds) (stackAllocOk : Bool) (arr : List Int)
    (low high : Nat) : List Int :=
  if high ≤ low then arr
  else if high + 1 - low < t.insertion_threshold then insertion_sort_int arr low high
  else if stackAllocOk = false then insertion_sort_int arr low high
  else qsLoop t (high + 2 - low) arr [(low, high)]

def quicksort_int (t : VsortThresholds) (arr : List Int) (low high : Nat) : List Int :=
  quicksort_intA t true arr low high

/-- All pending ranges lie inside the window `[LO, HI]`, are non-trivial,
and are pairwise disjoint. -/
def rangesOK (LO HI : Nat) (st : List (Nat × Nat)) : Prop :=
  (∀ r ∈ st, LO ≤ r.1 ∧ r.1 < r.2 ∧ r.2 ≤ HI) ∧
  st.Pairwise (fun r r' => r.2 < r'.1 ∨ r'.2 < r.1)

/-- Every index pair of the window not contained in a single pending range is
already ordered. -/
def crossOK (LO HI : Nat) (arr : List Int) (st : List (Nat × Nat)) : Prop :=
  ∀ i j, LO ≤ i → i < j → j ≤ HI → (∀ r ∈ st, ¬(r.1 ≤ i ∧ j ≤ r.2)) →
    getI arr i ≤ getI arr j

/-- The key preservation step: replacing the contents of a popped range
`[low, high]` by a permutation of them preserves `crossOK` for the new stack
`st2`, provided the new contents are ordered across every index pair not
inside an `st2` range. -/
theorem crossOK_step (arr arr1 : List Int) (LO HI low high : Nat)
    (rest st2 : List (Nat × Nat))
    (hlen : arr1.length = arr.length) (hHI : HI < arr.length)
    (hb1 : LO ≤ low) (hb2 : low < high) (hb3 : high ≤ HI)
    (hperm : arr1.Perm arr)
    (hout : ∀ k, k < low ∨ high < k → getI arr1 k = getI arr k)
    (hwin : ∀ i j, low ≤ i → i < j → j ≤ high →
      (∀ r ∈ st2, ¬(r.1 ≤ i ∧ j ≤ r.2)) → getI arr1 i ≤ getI arr1 j)
    (hdisj : ∀ r ∈ rest, r.2 < low ∨ high < r.1)
    (hrest_mem : ∀ r ∈ rest, r ∈ st2)
    (hcross : crossOK LO HI arr ((low, high) :: rest)) :
    crossOK LO HI arr1 st2 := by
  have hvals := window_vals arr1 arr low high hperm hlen (by omega) hout (by omega)
  intro i j hi hij hj hnr
  by_cases hiw : low ≤ i ∧ i ≤ high
  · by_cases hjw : low ≤ j ∧ j ≤ high
    · exact hwin i j hiw.1 hij hjw.2 hnr
    · have hjh : high < j := by omega
      obtain ⟨k, hk1, hk2, hkv⟩ := hvals i hiw.1 hiw.2
      rw [hkv, hout j (Or.inr hjh)]
      apply hcross k j (by omega) (by omega) hj
      intro r hr
      rcases List.mem_cons.mp hr with hr | hr
      · rw [hr]; dsimp only; omega
      · have := hdisj r hr; omega
  · have hiw' : i < low ∨ high < i := by
      rcases Nat.lt_or_ge i low with h | h
      · exact Or.inl h
      · exact Or.inr (by by_contra hc; exact hiw ⟨h, by omega⟩)
    by_cases hjw : low ≤ j ∧ j ≤ high
    · have hil : i < low := by omega
      obtain ⟨k, hk1, hk2, hkv⟩ := hvals j hjw.1 hjw.2
      rw [hout i (Or.inl hil), hkv]
      apply hcross i k hi (by omega) (by omega)
      intro r hr
      rcases List.mem_cons.mp hr with hr | hr
      · rw [hr]; dsimp only; omega
      · have := hdisj r hr; omega
    · have hjw' : j < low ∨ high < j := by
        rcases Nat.lt_or_ge j low with h | h
        · exact Or.inl h
        · exact Or.inr (by by_contra hc; exact hjw ⟨h, by omega⟩)
      rw [hout i hiw', hout j hjw']
      apply hcross i j hi hij hj
      intro r hr
      rcases List.mem_cons.mp hr with hr | hr
      · rw [hr]; dsimp only; omega
      · exact hnr r (hrest_mem r hr)

theorem qsPush_mem_left (low high p : Nat) (rest : List (Nat × Nat))
    (h : low < p - 1) : (low, p - 1) ∈ qsPush low high p rest := by
  rw [qsPush]
  split <;> simp [h]

theorem qsPush_mem_right (low high p : Nat) (rest : List (Nat × Nat))
    (h : p + 1 < high) : (p + 1, high) ∈ qsPush low high p rest := by
  rw [qsPush]
  simp only [h, if_true]
  split <;> simp

theorem qsPush_mem_rest (low high p : Nat) (rest : List (Nat × Nat)) :
    ∀ r ∈ rest, r ∈ qsPush low high p rest := by
  intro r hr
  rw [qsPush]
  split <;> split <;> simp [hr]

theorem qsPush_mem_elim (low high p : Nat) (rest : List (Nat × Nat)) :
    ∀ r ∈ qsPush low high p rest,
      (r = (low, p - 1) ∧ low < p - 1) ∨ (r = (p + 1, high) ∧ p + 1 < high) ∨ r ∈ rest := by
  intro r hr
  rw [qsPush] at hr
  by_cases h1 : low < p - 1 <;> by_cases h2 : p + 1 < high <;>
    simp [h1, h2] at hr <;> tauto

theorem qsPush_measure (low high p : Nat) (rest : List (Nat × Nat))
    (h1 : low ≤ p) (h2 : p ≤ high) :
    qsMeasure (qsPush low high p rest) ≤ (high - low) + qsMeasure rest := by
  rw [qsPush]
  split <;> split <;> simp [qsMeasure_cons] <;> omega

theorem qsPush_rangesOK (LO HI low high p : Nat) (rest : List (Nat × Nat))
    (hb1 : LO ≤ low) (hb2 : low < high) (hb3 : high ≤ HI)
    (hp1 : low ≤ p) (hp2 : p ≤ high)
    (hrest : rangesOK LO HI rest) (hdisj : ∀ r ∈ rest, r.2 < low ∨ high < r.1) :
    rangesOK LO HI (qsPush low high p rest) := by
  obtain ⟨hrb, hrp⟩ := hrest
  constructor
  · intro r hr
    rcases qsPush_mem_elim low high p rest r hr with ⟨h, hg⟩ | ⟨h, hg⟩ | h
    · rw [h]; dsimp only; omega
    · rw [h]; dsimp only; omega
    · exact hrb r h
  · rw [qsPush]
    have hR : (if p + 1 < high then ((p + 1, high) :: rest) else rest).Pairwise
        (fun r r' => r.2 < r'.1 ∨ r'.2 < r.1) := by
      split <;> rename_i hc
      · exact List.Pairwise.cons (fun r hr => by have := hdisj r hr; dsimp only; omega) hrp
      · exact hrp
    split <;> rename_i hc2
    · refine List.Pairwise.cons ?_ hR
      intro r hr
      split at hr <;> rename_i hc3
      · rcases List.mem_cons.mp hr with h | h
        · rw [h]; dsimp only; omega
        · have := hdisj r h; dsimp only; omega
      · have := hdisj r hr; dsimp only; omega
    · exact hR

theorem qsLoop_spec (t : VsortThresholds) (LO HI : Nat) :
    ∀ (fuel : Nat) (arr : List Int) (st : List (Nat × Nat)),
      qsMeasure st < fuel → HI < arr.length →
      rangesOK LO HI st → crossOK LO HI arr st →
      (qsLoop t fuel arr st).length = arr.length ∧
      (qsLoop t fuel arr st).Perm arr ∧
      (∀ k, k < LO ∨ HI < k → getI (qsLoop t fuel arr st) k = getI arr k) ∧
      sortedSlice (qsLoop t fuel arr st) LO HI := by
  intro fuel
  induction fuel with
  | zero =>
    intro arr st hm hHI hr hc
    exact absurd hm (by omega)
  | succ fuel ih =>
    intro arr st hm hHI hr hc
    rcases st with _ | ⟨⟨low, high⟩, rest⟩
    · rw [qsLoop]
      refine ⟨rfl, List.Perm.refl _, fun k _ => rfl, ?_⟩
      intro i j hi hij hj
      exact hc i j hi hij (by omega) (by simp)
    · obtain ⟨hbounds, hpw⟩ := hr
      have hlh := hbounds (low, high) (List.mem_cons_self _ _)
      dsimp only at hlh
      have hdisj : ∀ r ∈ rest, r.2 < low ∨ high < r.1 := by
        intro r hr2
        have h := (List.pairwise_cons.mp hpw).1 r hr2
        dsimp only at h
        omega
      have hrOK : rangesOK LO HI rest :=
        ⟨fun r h => hbounds r (List.mem_cons_of_mem _ h), (List.pairwise_cons.mp hpw).2⟩
      have hmc : qsMeasure ((low, high) :: rest) = (high + 1 - low) + qsMeasure rest :=
        qsMeasure_cons _ _ _
      rw [qsLoop]
      split <;> rename_i hsmall
      · -- small range: insertion sort it and continue
        obtain ⟨il, ip, io, is⟩ := insertion_sort_int_spec arr low high (by omega)
        have hc2 : crossOK LO HI (insertion_sort_int arr low high) rest :=
          crossOK_step arr _ LO HI low high rest rest il hHI hlh.1 hlh.2.1 hlh.2.2 ip io
            (fun i j h1 h2 h3 _ => is i j h1 h2 (by omega)) hdisj (fun r h => h) hc
        obtain ⟨l2, p2, o2, s2⟩ := ih (insertion_sort_int arr low high) rest
          (by omega) (by omega) hrOK hc2
        exact ⟨by rw [l2, il], p2.trans ip,
          fun k hk => by rw [o2 k hk, io k (by omega)], s2⟩
      · obtain ⟨pl, pp, po, pba, pbb, ple, pge⟩ :=
          partition_int_spec arr low high hlh.2.1 (by omega)
        split <;> rename_i hcap
        · -- stack near capacity: finish the whole range with insertion sort
          obtain ⟨il, ip, io, is⟩ :=
            insertion_sort_int_spec (partition_int arr low high).1 low high (by omega)
          have hc2 : crossOK LO HI
              (insertion_sort_int (partition_int arr low high).1 low high) rest :=
            crossOK_step arr _ LO HI low high rest rest (by rw [il, pl]) hHI
              hlh.1 hlh.2.1 hlh.2.2 (ip.trans pp) (fun k hk => by rw [io k hk, po k hk])
              (fun i j h1 h2 h3 _ => is i j h1 h2 (by omega)) hdisj (fun r h => h) hc
          obtain ⟨l2, p2, o2, s2⟩ := ih _ rest (by omega) (by rw [il, pl]; omega) hrOK hc2
          exact ⟨by rw [l2, il, pl], p2.trans (ip.trans pp),
            fun k hk => by rw [o2 k hk, io k (by omega), po k (by omega)], s2⟩
        · -- push the two sub-ranges
          set p := (partition_int arr low high).2 with hpdef
          have hwin2 : ∀ i j, low ≤ i → i < j → j ≤ high →
              (∀ r ∈ qsPush low high p rest, ¬(r.1 ≤ i ∧ j ≤ r.2)) →
              getI (partition_int arr low high).1 i ≤
                getI (partition_int arr low high).1 j := by
            intro i j h1 h2 h3 hnr
            have hnl : ¬(low ≤ i ∧ i < j ∧ j ≤ p - 1) := by
              by_cases hcl : low < p - 1
              · have h := hnr _ (qsPush_mem_left low high p rest hcl)
                dsimp only at h
                omega
              · omega
            have hnrt : ¬(p + 1 ≤ i ∧ j ≤ high) := by
              by_cases hcr : p + 1 < high
              · have h := hnr _ (qsPush_mem_right low high p rest hcr)
                dsimp only at h
                omega
              · omega
            rcases Nat.lt_or_ge i p with hi2 | hi2
            · have h1le := ple i h1 hi2
              rcases Nat.lt_or_ge p j with hj2 | hj2
              · exact h1le.trans (pge j hj2 h3)
              · have hpj : p = j := by omega
                rw [← hpj]
                exact h1le
            · have hip : i = p := by omega
              rw [hip]
              rcases Nat.lt_or_ge p j with hj2 | hj2
              · exact pge j hj2 h3
              · omega
          have hc2 : crossOK LO HI (partition_int arr low high).1
              (qsPush low high p rest) :=
            crossOK_step arr _ LO HI low high rest _ pl hHI hlh.1 hlh.2.1 hlh.2.2 pp po
              hwin2 hdisj (qsPush_mem_rest low high p rest) hc
          have hr2 : rangesOK LO HI (qsPush low high p rest) :=
            qsPush_rangesOK LO HI low high p rest hlh.1 hlh.2.1 hlh.2.2 pba pbb hrOK hdisj
          have hm2 : qsMeasure (qsPush low high p rest) < fuel := by
            have := qsPush_measure low high p rest pba pbb
            omega
          obtain ⟨l2, p2, o2, s2⟩ := ih _ _ hm2 (by rw [pl]; omega) hr2 hc2
          exact ⟨by rw [l2, pl], p2.trans pp,
            fun k hk => by rw [o2 k hk, po k (by omega)], s2⟩

/-- Full specification of `quicksort_int` (with stack-allocation oracle): a
permutation fixing everything outside `[low, high]`, sorting `[low, high]`. -/
theorem quicksort_intA_spec (t : VsortThresholds) (ok : Bool) (arr : List Int)
    (low high : Nat) (hh : high < arr.length) :
    (quicksort_intA t ok arr low high).length = arr.length ∧
    (quicksort_intA t ok arr low high).Perm arr ∧
    (∀ k, k < low ∨ high < k → getI (quicksort_intA t ok arr low high) k = getI arr k) ∧
    sortedSlice (quicksort_intA t ok arr low high) low high := by
  rw [quicksort_intA]
  split <;> rename_i h1
  · exact ⟨rfl, List.Perm.refl _, fun k _ => rfl, by intro i j hi hij hj; omega⟩
  · split <;> rename_i h2
    · exact insertion_sort_int_spec arr low high hh
    · split <;> rename_i h3
      · exact insertion_sort_int_spec arr low high hh
      · apply qsLoop_spec t low high (high + 2 - low) arr [(low, high)]
        · rw [qsMeasure_cons]
          simp [qsMeasure]
          omega
        · exact hh
        · refine ⟨?_, List.pairwise_singleton _ _⟩
          intro r hr
          rw [List.mem_singleton] at hr
          rw [hr]
          dsimp only
          omega
        · intro i j hi hij hj hnr
          exact absurd ⟨hi, hj⟩ (hnr (low, high) (List.mem_singleton_self _))

theorem quicksort_int_spec (t : VsortThresholds) (arr : List Int)
    (low high : Nat) (hh : high < arr.length) :
    (quicksort_int t arr low high).length = arr.length ∧
    (quicksort_int t arr low high).Perm arr ∧
    (∀ k, k < low ∨ high < k → getI (quicksort_int t arr low high) k = getI arr k) ∧
    sortedSlice (quicksort_int t arr low high) low high :=
  quicksort_intA_spec t true arr low high hh

theorem sorted_of_slice_all (l : List Int) (h : sortedSlice l 0 (l.length - 1)) :
    l.Sorted (· ≤ ·) := by
  rw [sorted_iff_getI]
  intro i j hij hj
  exact h i j (by omega) hij (by omega)

/-- `quicksort_int` over a whole array yields a sorted permutation. -/
theorem quicksort_int_sorts (t : VsortThresholds) (arr : List Int) (hne : arr ≠ []) :
    (quicksort_int t arr 0 (arr.length - 1)).Sorted (· ≤ ·) ∧
    (quicksort_int t arr 0 (arr.length - 1)).Perm arr := by
  have hlen : arr.length ≠ 0 := fun h => hne (List.length_eq_zero.mp h)
  obtain ⟨l1, p1, _, s1⟩ := quicksort_int_spec t arr 0 (arr.length - 1) (by omega)
  refine ⟨sorted_of_slice_all _ ?_, p1⟩
  rw [l1]
  exact s1

/-! ### LSD radix sort (`radix_sort_int`)

Unsigned 32-bit machine arithmetic is modelled with explicit `% 2^32`;
the C casts `(unsigned int)x` and `(int)u` become `toU32` and `ofU32`. -/

def U32 : Nat := 4294967296

def UINT_MAX : Nat := 4294967295

/-- The C cast `(unsigned int)x` (reduction mod `2^32`). -/
def toU32 (x : Int) : Nat := (x % (U32 : Int)).toNat

/-- The C cast `(int)u` for `u < 2^32` (two's-complement reinterpretation). -/
def ofU32 (u : Nat) : Int :=
  if u < 2147483648 then (u : Int) else (u : Int) - (U32 : Int)

/-- `(current_input[i] >> bit_shift) & mask` with `mask = 0xff`. -/
def digit (sh u : Nat) : Nat := (u >>> sh) &&& 255

theorem digit_eq (sh u : Nat) : digit sh u = u / 2 ^ sh % 256 := by
  rw [digit, Nat.shiftRight_eq_div_pow]
  exact Nat.and_pow_two_sub_one_eq_mod _ 8

theorem digit_lt (sh u : Nat) : digit sh u < 256 := by
  rw [digit_eq]
  exact Nat.mod_lt _ (by norm_num)

/-- Number of elements of `l` whose digit at `sh` is exactly `b`. -/
def countD (sh b : Nat) (l : List Nat) : Nat := l.countP (fun u => digit sh u == b)

/-- Number of elements of `l` whose digit at `sh` is `< b`. -/
def lowD (sh b : Nat) (l : List Nat) : Nat := l.countP (fun u => decide (digit sh u < b))

/-- Number of elements of `l` whose digit at `sh` is `≤ b`. -/
def cumD (sh b : Nat) (l : List Nat) : Nat := l.countP (fun u => decide (digit sh u ≤ b))

theorem cumD_split (sh b : Nat) (l : List Nat) :
    cumD sh b l = lowD sh b l + countD sh b l := by
  induction l with
  | nil => rfl
  | cons x xs ih =>
    simp only [cumD, lowD, countD, List.countP_cons] at ih ⊢
    by_cases h : digit sh x = b
    · simp [h, ih, cumD, lowD, countD]
      omega
    · rcases Nat.lt_or_ge (digit sh x) b with h2 | h2
      · simp [h, h2, Nat.le_of_lt h2, ih, cumD, lowD, countD]
        omega
      · have h3 : ¬digit sh x < b := by omega
        have h4 : ¬digit sh x ≤ b := by omega
        simp [h, h3, h4, ih, cumD, lowD, countD]

theorem lowD_succ (sh b : Nat) (l : List Nat) :
    lowD sh (b + 1) l = cumD sh b l := by
  unfold lowD cumD
  congr 1
  funext u
  simp [Nat.lt_succ_iff]

theorem lowD_zero (sh : Nat) (l : List Nat) : lowD sh 0 l = 0 := by
  unfold lowD
  induction l with
  | nil => rfl
  | cons x xs ih => simpa [List.countP_cons] using ih

theorem countD_big (sh b : Nat) (l : List Nat) (h : 256 ≤ b) : countD sh b l = 0 := by
  unfold countD
  induction l with
  | nil => rfl
  | cons x xs ih =>
    have := digit_lt sh x
    simp [List.countP_cons, ih]
    omega

theorem lowD_all (sh b : Nat) (l : List Nat) (h : 256 ≤ b) : lowD sh b l = l.length := by
  unfold lowD
  induction l with
  | nil => rfl
  | cons x xs ih =>
    have := digit_lt sh x
    simp [List.countP_cons, ih]
    omega

theorem lowD_mono (sh : Nat) (l : List Nat) (b b' : Nat) (h : b ≤ b') :
    lowD sh b l ≤ lowD sh b' l := by
  unfold lowD
  induction l with
  | nil => exact le_refl _
  | cons x xs ih =>
    simp only [List.countP_cons]
    by_cases hx : digit sh x < b
    · have hx' : digit sh x < b' := by omega
      simp [hx, hx']
      omega
    · by_cases hx' : digit sh x < b'
      · simp [hx, hx']
        omega
      · simp [hx, hx']
        omega

/-- Bins are disjoint as index intervals: `[lowD b, lowD b + countD b)`. -/
theorem bin_intervals_disjoint (sh : Nat) (l : List Nat) (b b' : Nat) (h : b < b') :
    lowD sh b l + countD sh b l ≤ lowD sh b' l := by
  rw [← cumD_split, ← lowD_succ]
  exact lowD_mono sh l (b + 1) b' h

/-- `for (i = 0; i < n; i++) count[(a[i] >> sh) & mask]++`. -/
def countLoop (sh : Nat) : List Nat → (Nat → Nat) → (Nat → Nat)
  | [], cnt => cnt
  | u :: us, cnt =>
    countLoop sh us (fun b => if b = digit sh u then cnt b + 1 else cnt b)

theorem countLoop_spec (sh : Nat) :
    ∀ (us : List Nat) (cnt : Nat → Nat) (b : Nat),
      countLoop sh us cnt b = cnt b + countD sh b us := by
  intro us
  induction us with
  | nil => intro cnt b; simp [countLoop, countD]
  | cons u us ih =>
    intro cnt b
    rw [countLoop, ih]
    simp only [countD, List.countP_cons]
    by_cases h : digit sh u = b
    · simp [h, countD]
      omega
    · simp [h, countD, Ne.symm h]

/-- `for (i = 1; i < 256; i++) count[i] += count[i-1]` (prefix sums); `i` is
the current index, `c` the remaining iterations. -/
def prefixLoop : (Nat → Nat) → Nat → Nat → (Nat → Nat)
  | cnt, _, 0 => cnt
  | cnt, i, c + 1 =>
    prefixLoop (fun b => if b = i then cnt i + cnt (i - 1) else cnt b) (i + 1) c

theorem prefixLoop_spec (sh : Nat) (l : List Nat) :
    ∀ (c : Nat) (cnt : Nat → Nat) (i : Nat), 1 ≤ i →
      (∀ b, b < i → cnt b = cumD sh b l) →
      (∀ b, i ≤ b → cnt b = countD sh b l) →
      (∀ b, b < i + c → prefixLoop cnt i c b = cumD sh b l) ∧
      (∀ b, i + c ≤ b → prefixLoop cnt i c b = countD sh b l) := by
  intro c
  induction c with
  | zero =>
    intro cnt i hi hlow hhigh
    rw [prefixLoop]
    exact ⟨fun b hb => hlow b (by omega), fun b hb => hhigh b (by omega)⟩
  | succ c ih =>
    intro cnt i hi hlow hhigh
    rw [prefixLoop]
    have hstep_low : ∀ b, b < i + 1 →
        (fun b => if b = i then cnt i + cnt (i - 1) else cnt b) b = cumD sh b l := by
      intro b hb
      by_cases hbi : b = i
      · subst hbi
        dsimp only
        rw [if_pos rfl, hhigh b (le_refl _), hlow (b - 1) (by omega)]
        have hb1 : b - 1 + 1 = b := by omega
        rw [← lowD_succ, hb1, cumD_split]
        omega
      · simp only [if_neg hbi]
        exact hlow b (by omega)
    have hstep_high : ∀ b, i + 1 ≤ b →
        (fun b => if b = i then cnt i + cnt (i - 1) else cnt b) b = countD sh b l := by
      intro b hb
      simp only [if_neg (by omega : ¬ b = i)]
      exact hhigh b (by omega)
    obtain ⟨h1, h2⟩ := ih _ (i + 1) (by omega) hstep_low hstep_high
    exact ⟨fun b hb => h1 b (by omega), fun b hb => h2 b (by omega)⟩

theorem countD_append (sh b : Nat) (l1 l2 : List Nat) :
    countD sh b (l1 ++ l2) = countD sh b l1 + countD sh b l2 := by
  simp [countD, List.countP_append]

theorem countD_cons_self (sh b u : Nat) (l : List Nat) (h : digit sh u = b) :
    countD sh b (u :: l) = countD sh b l + 1 := by
  simp [countD, List.countP_cons, h]

theorem countD_cons_ne (sh b u : Nat) (l : List Nat) (h : digit sh u ≠ b) :
    countD sh b (u :: l) = countD sh b l := by
  simp [countD, List.countP_cons, h]

/-- The backward placement loop
`for (i = n-1; i >= 0; i--) out[--count[digit(in[i])]] = in[i]`, expressed as
a forward scan over the reversed input. -/
def placeLoop (sh : Nat) : List Nat → (Nat → Nat) → (Nat → Option Nat) →
    ((Nat → Nat) × (Nat → Option Nat))
  | [], cnt, out => (cnt, out)
  | u :: us, cnt, out =>
    placeLoop sh us
      (fun b => if b = digit sh u then cnt (digit sh u) - 1 else cnt b)
      (fun k => if k = cnt (digit sh u) - 1 then some u else out k)

/-- Main invariant of the placement loop: after the whole scan, counter `b`
has come down to `lowD b` and the output slots `[lowD b, lowD b + countD b)`
hold the elements of digit `b` of the processed input, reversed (the scan
itself runs over the reversed array, so this is original order). -/
theorem placeLoop_inv (sh : Nat) (ful : List Nat) :
    ∀ (todo done : List Nat) (cnt : Nat → Nat) (out : Nat → Option Nat),
      (∀ b, b < 256 → cnt b = lowD sh b ful + countD sh b todo) →
      (∀ b, b < 256 → countD sh b done + countD sh b todo ≤ countD sh b ful) →
      (∀ b, b < 256 → ∀ idx, idx < countD sh b done →
        out (cnt b + idx) =
          some (((done.filter (fun u => digit sh u == b)).reverse).getD idx 0)) →
      (∀ b, b < 256 → (placeLoop sh todo cnt out).1 b = lowD sh b ful) ∧
      (∀ b, b < 256 → ∀ idx, idx < countD sh b (done ++ todo) →
        (placeLoop sh todo cnt out).2 (lowD sh b ful + idx) =
          some ((((done ++ todo).filter (fun u => digit sh u == b)).reverse).getD idx 0)) := by
  intro todo
  induction todo with
  | nil =>
    intro done cnt out hcnt htot hout
    rw [placeLoop]
    dsimp only
    constructor
    · intro b hb
      rw [hcnt b hb]
      simp [countD]
    · intro b hb idx hidx
      rw [List.append_nil] at hidx ⊢
      have h := hout b hb idx hidx
      rw [hcnt b hb] at h
      simpa [countD] using h
  | cons u todo' ih =>
    intro done cnt out hcnt htot hout
    rw [placeLoop]
    set b0 := digit sh u with hb0
    have hb0lt : b0 < 256 := digit_lt sh u
    have hu_eq : digit sh u = b0 := hb0.symm
    have hcntb0 : cnt b0 = lowD sh b0 ful + countD sh b0 todo' + 1 := by
      rw [hcnt b0 hb0lt, countD_cons_self sh b0 u todo' hu_eq]
      omega
    have hcub : countD sh b0 [u] = 1 := by
      rw [countD_cons_self sh b0 u [] hu_eq]
      simp [countD]
    set cnt' := fun b => if b = b0 then cnt b0 - 1 else cnt b with hcnt'd
    set out' := fun k => if k = cnt b0 - 1 then some u else out k with hout'd
    have hcnt'1 : ∀ b, b < 256 → cnt' b = lowD sh b ful + countD sh b todo' := by
      intro b hb
      rw [hcnt'd]
      dsimp only
      by_cases hbb : b = b0
      · subst hbb
        rw [if_pos rfl]
        omega
      · rw [if_neg hbb, hcnt b hb,
          countD_cons_ne sh b u todo' (by rw [hu_eq]; exact fun h => hbb h.symm)]
    have htot' : ∀ b, b < 256 →
        countD sh b (done ++ [u]) + countD sh b todo' ≤ countD sh b ful := by
      intro b hb
      rw [countD_append]
      by_cases hbb : b = b0
      · rw [hbb, hcub]
        have h := htot b0 hb0lt
        rw [countD_cons_self sh b0 u todo' hu_eq] at h
        omega
      · have h := htot b hb
        rw [countD_cons_ne sh b u todo' (by rw [hu_eq]; exact fun hx => hbb hx.symm)] at h
        have hcu0 : countD sh b [u] = 0 := by
          rw [countD_cons_ne sh b u [] (by rw [hu_eq]; exact fun hx => hbb hx.symm)]
          simp [countD]
        rw [hcu0]
        omega
    have hout'main : ∀ b, b < 256 → ∀ idx, idx < countD sh b (done ++ [u]) →
        out' (cnt' b + idx) =
          some ((((done ++ [u]).filter (fun v => digit sh v == b)).reverse).getD idx 0) := by
      intro b hb idx hidx
      by_cases hbb : b = b0
      · have hfil : (done ++ [u]).filter (fun v => digit sh v == b) =
            done.filter (fun v => digit sh v == b) ++ [u] := by
          rw [List.filter_append]
          simp [hu_eq, hbb]
        rw [hfil, List.reverse_append]
        have hcnt'b : cnt' b = cnt b0 - 1 := by
          rw [hcnt'd]; dsimp only; rw [if_pos hbb]
        have hcub' : countD sh b [u] = 1 := by rw [hbb]; exact hcub
        have hcb : cnt b = cnt b0 := by rw [hbb]
        cases idx with
        | zero =>
          rw [hcnt'b, hout'd]
          dsimp only
          rw [if_pos (by omega)]
          simp
        | succ idx' =>
          have hidx' : idx' < countD sh b done := by
            rw [countD_append, hcub'] at hidx
            omega
          rw [hcnt'b, hout'd]
          dsimp only
          rw [if_neg (by omega)]
          have hpos : cnt b0 - 1 + (idx' + 1) = cnt b + idx' := by omega
          rw [hpos, hout b hb idx' hidx']
          simp
      · have hdne : digit sh u ≠ b := by rw [hu_eq]; exact fun hx => hbb hx.symm
        have hcnt'b : cnt' b = cnt b := by
          rw [hcnt'd]; dsimp only; rw [if_neg hbb]
        have hidxd : idx < countD sh b done := by
          have hcu0 : countD sh b [u] = 0 := by
            rw [countD_cons_ne sh b u [] hdne]
            simp [countD]
          rw [countD_append, hcu0] at hidx
          omega
        have hfil : (done ++ [u]).filter (fun v => digit sh v == b) =
            done.filter (fun v => digit sh v == b) := by
          rw [List.filter_append]
          simp [hdne]
        have hne : cnt b + idx ≠ cnt b0 - 1 := by
          have ht := htot b hb
          have ht0 := htot b0 hb0lt
          rw [countD_cons_self sh b0 u todo' hu_eq] at ht0
          rw [countD_cons_ne sh b u todo' hdne] at ht
          have hc1 := hcnt b hb
          rw [countD_cons_ne sh b u todo' hdne] at hc1
          rcases Nat.lt_or_ge b b0 with hlt | hge
          · have hd := bin_intervals_disjoint sh ful b b0 hlt
            omega
          · have hd := bin_intervals_disjoint sh ful b0 b (by omega)
            omega
        rw [hfil, hcnt'b, hout'd]
        dsimp only
        rw [if_neg hne]
        exact hout b hb idx hidxd
    have hres := ih (done ++ [u]) cnt' out' hcnt'1 htot' hout'main
    have happ : done ++ [u] ++ todo' = done ++ u :: todo' := by simp
    rw [happ] at hres
    exact hres

theorem getDN_eq_getElem (l : List Nat) (i : Nat) (h : i < l.length) :
    l.getD i 0 = l[i] := by
  simp [List.getD_eq_getElem?_getD, List.getElem?_eq_getElem h]

/-- One full 8-bit counting pass of `radix_sort_int` at bit offset `sh`:
count, prefix-sum, backward placement, then read the output buffer. -/
def countingPass (sh : Nat) (l : List Nat) : List Nat :=
  let cnt0 := countLoop sh l (fun _ => 0)
  let cnt1 := prefixLoop cnt0 1 255
  let res := placeLoop sh l.reverse cnt1 (fun _ => none)
  (List.range l.length).map (fun i => (res.2 i).getD 0)

/-- Denotation of a stable counting pass: the 256 bins concatenated. -/
def binConcat (sh : Nat) (l : List Nat) : List Nat :=
  (List.range 256).flatMap (fun b => l.filter (fun u => digit sh u == b))

theorem filter_split_perm (sh m : Nat) (l : List Nat) :
    (l.filter (fun u => decide (digit sh u < m)) ++
      l.filter (fun u => digit sh u == m)).Perm
      (l.filter (fun u => decide (digit sh u < m + 1))) := by
  induction l with
  | nil => simp
  | cons x xs ih =>
    rcases Nat.lt_trichotomy (digit sh x) m with h1 | h1 | h1
    · have h2 : digit sh x < m + 1 := by omega
      have h3 : ¬ digit sh x = m := by omega
      rw [List.filter_cons_of_pos (by simpa using h1),
        List.filter_cons_of_neg (by simpa using h3),
        List.filter_cons_of_pos (by simpa using h2)]
      simpa using ih.cons x
    · have h2 : digit sh x < m + 1 := by omega
      have h3 : ¬ digit sh x < m := by omega
      rw [List.filter_cons_of_neg (by simpa using h3),
        List.filter_cons_of_pos (by simpa using h1),
        List.filter_cons_of_pos (by simpa using h2)]
      exact (List.perm_middle).trans (ih.cons x)
    · have h2 : ¬ digit sh x < m + 1 := by omega
      have h3 : ¬ digit sh x < m := by omega
      have h4 : ¬ digit sh x = m := by omega
      rw [List.filter_cons_of_neg (by simpa using h3),
        List.filter_cons_of_neg (by simpa using h4),
        List.filter_cons_of_neg (by simpa using h2)]
      exact ih

theorem bind_filter_perm (sh : Nat) (l : List Nat) :
    ∀ m : Nat, ((List.range m).flatMap (fun b => l.filter (fun u => digit sh u == b))).Perm
      (l.filter (fun u => decide (digit sh u < m))) := by
  intro m
  induction m with
  | zero =>
    simp only [List.range_zero, List.flatMap_nil]
    have : l.filter (fun u => decide (digit sh u < 0)) = [] :=
      List.filter_eq_nil.mpr (fun a _ => by simp)
    rw [this]
  | succ m ih =>
    rw [List.range_succ, List.flatMap_append, List.flatMap_cons, List.flatMap_nil, List.append_nil]
    exact (ih.append (List.Perm.refl _)).trans (filter_split_perm sh m l)

theorem binConcat_perm (sh : Nat) (l : List Nat) : (binConcat sh l).Perm l := by
  have h := bind_filter_perm sh l 256
  have hall : l.filter (fun u => decide (digit sh u < 256)) = l :=
    List.filter_eq_self.mpr (fun a _ => by simpa using digit_lt sh a)
  rw [hall] at h
  exact h

theorem countD_eq_filter_length (sh b : Nat) (l : List Nat) :
    countD sh b l = (l.filter (fun u => digit sh u == b)).length := by
  rw [countD, List.countP_eq_length_filter]

theorem lowD_le_succ_block (sh b : Nat) (l : List Nat) :
    lowD sh (b + 1) l = lowD sh b l + countD sh b l := by
  rw [lowD_succ, cumD_split]

/-- Index computation inside the bin concatenation: position
`lowD b - lowD s + idx` of the bins `[s, s+m)` holds element `idx` of bin `b`. -/
theorem bind_getD (sh : Nat) (l : List Nat) :
    ∀ (m s b : Nat), s ≤ b → b < s + m →
      ∀ idx, idx < countD sh b l →
        ((List.range' s m).flatMap (fun j => l.filter (fun u => digit sh u == j))).getD
          ((lowD sh b l - lowD sh s l) + idx) 0 =
          (l.filter (fun u => digit sh u == b)).getD idx 0 := by
  intro m
  induction m with
  | zero => intro s b h1 h2; omega
  | succ m ih =>
    intro s b h1 h2 idx hidx
    rw [List.range'_succ, List.flatMap_cons]
    rcases Nat.eq_or_lt_of_le h1 with hbs | hbs
    · subst hbs
      rw [Nat.sub_self, Nat.zero_add]
      rw [List.getD_append]
      rw [← countD_eq_filter_length]
      exact hidx
    · have hoff : lowD sh b l - lowD sh s l + idx =
          (l.filter (fun u => digit sh u == s)).length +
            (lowD sh b l - lowD sh (s + 1) l + idx) := by
        rw [← countD_eq_filter_length]
        have hstep := lowD_le_succ_block sh s l
        have hmono := lowD_mono sh l (s + 1) b (by omega)
        omega
      have hgr : ((l.filter (fun u => digit sh u == s)) ++
          (List.range' (s + 1) m).flatMap (fun j => l.filter (fun u => digit sh u == j))).getD
          ((l.filter (fun u => digit sh u == s)).length +
            (lowD sh b l - lowD sh (s + 1) l + idx)) 0 =
          ((List.range' (s + 1) m).flatMap (fun j => l.filter (fun u => digit sh u == j))).getD
          (lowD sh b l - lowD sh (s + 1) l + idx) 0 := by
        rw [List.getD_append_right _ _ _ _ (by omega)]
        congr 1
        omega
      rw [hoff, hgr]
      exact ih (s + 1) b (by omega) (by omega) idx hidx

theorem bin_decompose (sh : Nat) (l : List Nat) :
    ∀ (m i : Nat), i < lowD sh m l →
      ∃ b, b < m ∧ lowD sh b l ≤ i ∧ i < lowD sh b l + countD sh b l := by
  intro m
  induction m with
  | zero => intro i hi; rw [lowD_zero] at hi; omega
  | succ m ih =>
    intro i hi
    rcases Nat.lt_or_ge i (lowD sh m l) with h | h
    · obtain ⟨b, hb, h1, h2⟩ := ih i h
      exact ⟨b, by omega, h1, h2⟩
    · refine ⟨m, by omega, h, ?_⟩
      rw [lowD_le_succ_block] at hi
      omega

/-- The literal counting pass equals the bins concatenation. -/
theorem countingPass_eq (sh : Nat) (l : List Nat) :
    countingPass sh l = binConcat sh l := by
  have hperm := binConcat_perm sh l
  have hlen2 : (binConcat sh l).length = l.length := hperm.length_eq
  have hcnt1 : ∀ b, b < 256 →
      prefixLoop (countLoop sh l (fun _ => 0)) 1 255 b =
        lowD sh b l + countD sh b l.reverse := by
    intro b hb
    have hcl : ∀ b', countLoop sh l (fun _ => 0) b' = countD sh b' l := by
      intro b'
      rw [countLoop_spec]
      omega
    obtain ⟨hpre, _⟩ := prefixLoop_spec sh l 255 (countLoop sh l (fun _ => 0)) 1
      (le_refl _)
      (by
        intro b' hb'
        have hb0 : b' = 0 := by omega
        subst hb0
        rw [hcl 0, cumD_split, lowD_zero]
        omega)
      (fun b' _ => hcl b')
    rw [hpre b (by omega), cumD_split]
    have : countD sh b l.reverse = countD sh b l := (List.reverse_perm l).countP_eq _
    omega
  obtain ⟨hfin_cnt, hfin_out⟩ := placeLoop_inv sh l l.reverse []
    (prefixLoop (countLoop sh l (fun _ => 0)) 1 255) (fun _ => none)
    hcnt1
    (by
      intro b hb
      have hrev : countD sh b l.reverse = countD sh b l := (List.reverse_perm l).countP_eq _
      have h0 : countD sh b ([] : List Nat) = 0 := rfl
      omega)
    (by
      intro b hb idx hidx
      simp [countD] at hidx)
  apply List.ext_getElem
  · simp [countingPass, hlen2]
  · intro i h1 h2
    have hil : i < l.length := by simpa [countingPass] using h1
    have hlow : i < lowD sh 256 l := by rw [lowD_all sh 256 l (le_refl _)]; exact hil
    obtain ⟨b, hb, hge, hlt⟩ := bin_decompose sh l 256 i hlow
    have hidx : i - lowD sh b l < countD sh b ([] ++ l.reverse) := by
      simp only [List.nil_append]
      have : countD sh b l.reverse = countD sh b l := (List.reverse_perm l).countP_eq _
      omega
    have hout := hfin_out b hb (i - lowD sh b l) hidx
    have hpos : lowD sh b l + (i - lowD sh b l) = i := by omega
    rw [hpos] at hout
    simp only [List.nil_append] at hout
    rw [List.filter_reverse, List.reverse_reverse] at hout
    -- left side
    have hL : (countingPass sh l)[i] =
        ((placeLoop sh l.reverse (prefixLoop (countLoop sh l (fun _ => 0)) 1 255)
          (fun _ => none)).2 i).getD 0 := by
      simp only [countingPass]
      rw [List.getElem_map, List.getElem_range]
    rw [hL, hout]
    -- right side
    have hcd : countD sh b l.reverse = countD sh b l := (List.reverse_perm l).countP_eq _
    have hR := bind_getD sh l 256 0 b (by omega) (by omega) (i - lowD sh b l)
      (by omega)
    rw [lowD_zero, Nat.sub_zero, hpos] at hR
    have hbc : binConcat sh l = (List.range' 0 256).flatMap
        (fun j => l.filter (fun u => digit sh u == j)) := by
      rw [binConcat, List.range_eq_range']
    rw [← hbc] at hR
    rw [← getDN_eq_getElem _ _ h2, hR]
    have hfl : i - lowD sh b l < (l.filter (fun u => digit sh u == b)).length := by
      rw [← countD_eq_filter_length]
      omega
    rw [Option.getD_some, getDN_eq_getElem _ _ hfl]

theorem key_decomp (sh u : Nat) :
    u % (2 ^ sh * 256) = u % 2 ^ sh + 2 ^ sh * digit sh u := by
  rw [digit_eq, Nat.mod_mul]

theorem pairwise_flatMap_bins (sh : Nat) (l : List Nat) (R : Nat → Nat → Prop)
    (hfil : ∀ b, (l.filter (fun u => digit sh u == b)).Pairwise R)
    (hcross : ∀ x y, digit sh x < digit sh y → R x y) :
    ∀ (m s : Nat),
      ((List.range' s m).flatMap (fun j => l.filter (fun u => digit sh u == j))).Pairwise R := by
  intro m
  induction m with
  | zero => intro s; simp
  | succ m ih =>
    intro s
    rw [List.range'_succ, List.flatMap_cons, List.pairwise_append]
    refine ⟨hfil s, ih (s + 1), ?_⟩
    intro x hx y hy
    have hdx : digit sh x = s := by simpa using (List.mem_filter.mp hx).2
    obtain ⟨j, hj, hyf⟩ := List.mem_flatMap.mp hy
    have hdy : digit sh y = j := by simpa using (List.mem_filter.mp hyf).2
    have hjr := List.mem_range'_1.mp hj
    apply hcross
    rw [hdx, hdy]
    omega

/-- One stable counting pass refines sortedness by one more digit. -/
theorem countingPass_pairwise (sh : Nat) (l : List Nat)
    (h : l.Pairwise (fun x y => x % 2 ^ sh ≤ y % 2 ^ sh)) :
    (countingPass sh l).Pairwise
      (fun x y => x % (2 ^ sh * 256) ≤ y % (2 ^ sh * 256)) := by
  rw [countingPass_eq, binConcat, List.range_eq_range']
  apply pairwise_flatMap_bins
  · intro b
    have hp := h.filter (fun u => digit sh u == b)
    refine hp.imp_of_mem ?_
    intro a c ha hc hle
    have hda : digit sh a = b := by simpa using (List.mem_filter.mp ha).2
    have hdc : digit sh c = b := by simpa using (List.mem_filter.mp hc).2
    rw [key_decomp, key_decomp, hda, hdc]
    omega
  · intro x y hxy
    have hxm : x % 2 ^ sh < 2 ^ sh := Nat.mod_lt _ (Nat.pos_pow_of_pos sh (by norm_num))
    rw [key_decomp, key_decomp]
    have h1 : x % 2 ^ sh + 2 ^ sh * digit sh x < 2 ^ sh * (digit sh x + 1) := by
      rw [Nat.mul_add, Nat.mul_one]
      omega
    have h2 : 2 ^ sh * (digit sh x + 1) ≤ 2 ^ sh * digit sh y :=
      Nat.mul_le_mul_left _ (by omega)
    omega

/-- The pass loop `for (p = 0; p < passes; p++)` of `radix_sort_int`
(double buffering is value passing in the embedding). -/
def radixPasses (l : List Nat) : Nat → List Nat
  | 0 => l
  | k + 1 => countingPass (8 * k) (radixPasses l k)

theorem countingPass_perm (sh : Nat) (l : List Nat) : (countingPass sh l).Perm l := by
  rw [countingPass_eq]
  exact binConcat_perm sh l

theorem radixPasses_perm (l : List Nat) : ∀ k, (radixPasses l k).Perm l := by
  intro k
  induction k with
  | zero => exact List.Perm.refl _
  | succ k ih => exact (countingPass_perm _ _).trans ih

theorem radixPasses_pairwise (l : List Nat) :
    ∀ k, (radixPasses l k).Pairwise (fun x y => x % 2 ^ (8 * k) ≤ y % 2 ^ (8 * k)) := by
  intro k
  induction k with
  | zero =>
    apply List.pairwise_iff_getElem.mpr
    intro i j hi hj hij
    simp [Nat.mod_one]
  | succ k ih =>
    have h := countingPass_pairwise (8 * k) (radixPasses l k) ih
    have hpow : 2 ^ (8 * k) * 256 = 2 ^ (8 * (k + 1)) := by
      have : 8 * (k + 1) = 8 * k + 8 := by ring
      rw [this, pow_add]
      norm_num
    rw [hpow] at h
    exact h

/-- After enough passes the list is sorted outright. -/
theorem radixPasses_sorted (l : List Nat) (k M : Nat) (hM : M ≤ 2 ^ (8 * k))
    (hbound : ∀ u ∈ l, u < M) :
    (radixPasses l k).Pairwise (· ≤ ·) := by
  have h := radixPasses_pairwise l k
  refine h.imp_of_mem ?_
  intro a b ha hb hr
  have ha' : a < 2 ^ (8 * k) :=
    lt_of_lt_of_le (hbound a ((radixPasses_perm l k).subset ha)) hM
  have hb' : b < 2 ^ (8 * k) :=
    lt_of_lt_of_le (hbound b ((radixPasses_perm l k).subset hb)) hM
  rwa [Nat.mod_eq_of_lt ha', Nat.mod_eq_of_lt hb'] at hr

/-! ### `radix_sort_int` top level -/

/-- `for (i = 1; i < n; i++) if (arr[i] > max) max = arr[i]`. -/
def maxLoop : Int → List Int → Int
  | m, [] => m
  | m, x :: xs => maxLoop (if m < x then x else m) xs

/-- `for (i = 1; i < n; i++) if (arr[i] < min) min = arr[i]`. -/
def minLoop : Int → List Int → Int
  | m, [] => m
  | m, x :: xs => minLoop (if x < m then x else m) xs

theorem maxLoop_spec : ∀ (xs : List Int) (m : Int),
    m ≤ maxLoop m xs ∧ (∀ x ∈ xs, x ≤ maxLoop m xs) ∧
    (maxLoop m xs = m ∨ maxLoop m xs ∈ xs) := by
  intro xs
  induction xs with
  | nil => exact fun m => ⟨le_refl _, by simp, Or.inl rfl⟩
  | cons x xs ih =>
    intro m
    rw [maxLoop]
    obtain ⟨h1, h2, h3⟩ := ih (if m < x then x else m)
    constructor
    · refine le_trans ?_ h1
      split <;> omega
    constructor
    · intro y hy
      rcases List.mem_cons.mp hy with hy | hy
      · subst hy
        refine le_trans ?_ h1
        split <;> omega
      · exact h2 y hy
    · rcases h3 with h3 | h3
      · rw [h3]
        split <;> rename_i hc
        · exact Or.inr (List.mem_cons_self _ _)
        · exact Or.inl rfl
      · exact Or.inr (List.mem_cons_of_mem _ h3)

theorem minLoop_spec : ∀ (xs : List Int) (m : Int),
    minLoop m xs ≤ m ∧ (∀ x ∈ xs, minLoop m xs ≤ x) ∧
    (minLoop m xs = m ∨ minLoop m xs ∈ xs) := by
  intro xs
  induction xs with
  | nil => exact fun m => ⟨le_refl _, by simp, Or.inl rfl⟩
  | cons x xs ih =>
    intro m
    rw [minLoop]
    obtain ⟨h1, h2, h3⟩ := ih (if x < m then x else m)
    constructor
    · refine le_trans h1 ?_
      split <;> omega
    constructor
    · intro y hy
      rcases List.mem_cons.mp hy with hy | hy
      · subst hy
        refine le_trans h1 ?_
        split <;> omega
      · exact h2 y hy
    · rcases h3 with h3 | h3
      · rw [h3]
        split <;> rename_i hc
        · exact Or.inr (List.mem_cons_self _ _)
        · exact Or.inl rfl
      · exact Or.inr (List.mem_cons_of_mem _ h3)

/-- `max_val` of `radix_sort_int` (initialised with `arr[0]`). -/
def radixMaxV (arr : List Int) : Int :=
  match arr with
  | [] => 0
  | x :: xs => maxLoop x xs

/-- `min_val` of `radix_sort_int` (initialised with `arr[0]`). -/
def radixMinV (arr : List Int) : Int :=
  match arr with
  | [] => 0
  | x :: xs => minLoop x xs

/-- `shift_amount` of `radix_sort_int`. -/
def radixShift (arr : List Int) : Nat :=
  if radixMinV arr < 0 then (-(radixMinV arr)).toNat else 0

/-- `max_shifted` of `radix_sort_int`. -/
def radixMaxShifted (arr : List Int) : Nat :=
  if radixMinV arr < 0 then (radixMaxV arr - radixMinV arr).toNat
  else toU32 (radixMaxV arr)

/-- `passes` of `radix_sort_int`: for a positive `max_shifted` the bit count
is `32 - clz(max_shifted) = log2(max_shifted) + 1` and the pass count its
ceiling division by 8; otherwise a single pass. -/
def radixPassCount (arr : List Int) : Nat :=
  if 0 < radixMaxShifted arr then (Nat.log2 (radixMaxShifted arr) + 1 + 7) / 8 else 1

/-- `radix_sort_int(arr, n)` with allocation oracles for its two scratch
buffers (`temp_arr` and `output`); allocation failure falls back to
`quicksort_int`, as does a value range wider than `UINT_MAX`.  The shift
`(unsigned int)arr[i] + shift_amount` and the unshift
`(int)(current_input[i] - shift_amount)` are unsigned mod-`2^32` operations. -/
def radix_sort_intA (t : VsortThresholds) (tempAllocOk outAllocOk : Bool)
    (arr : List Int) : List Int :=
  if arr.length ≤ 1 then arr
  else if tempAllocOk = false then quicksort_int t arr 0 (arr.length - 1)
  else if radixMinV arr < 0 ∧ (UINT_MAX : Int) < radixMaxV arr - radixMinV arr then
    quicksort_int t arr 0 (arr.length - 1)
  else if outAllocOk = false then quicksort_int t arr 0 (arr.length - 1)
  else
    (radixPasses (arr.map (fun x => (toU32 x + radixShift arr) % U32))
      (radixPassCount arr)).map (fun u => ofU32 ((u + (U32 - radixShift arr)) % U32))

def radix_sort_int (t : VsortThresholds) (arr : List Int) : List Int :=
  radix_sort_intA t true true arr

def int32min : Int := -2147483648

def int32max : Int := 2147483647

theorem length_le_one_sorted (l : List Int) (h : l.length ≤ 1) : l.Sorted (· ≤ ·) := by
  match l with
  | [] => exact List.sorted_nil
  | [x] => exact List.sorted_singleton x
  | x :: y :: rest => simp at h

theorem radixMinV_mem (arr : List Int) (h : arr ≠ []) : radixMinV arr ∈ arr := by
  match arr with
  | x :: xs =>
    rw [radixMinV]
    rcases (minLoop_spec xs x).2.2 with h2 | h2
    · rw [h2]; exact List.mem_cons_self _ _
    · exact List.mem_cons_of_mem _ h2

theorem radixMinV_le (arr : List Int) (h : arr ≠ []) : ∀ x ∈ arr, radixMinV arr ≤ x := by
  match arr with
  | x :: xs =>
    intro y hy
    rw [radixMinV]
    rcases List.mem_cons.mp hy with hy | hy
    · rw [hy]; exact (minLoop_spec xs x).1
    · exact (minLoop_spec xs x).2.1 y hy

theorem radixMaxV_mem (arr : List Int) (h : arr ≠ []) : radixMaxV arr ∈ arr := by
  match arr with
  | x :: xs =>
    rw [radixMaxV]
    rcases (maxLoop_spec xs x).2.2 with h2 | h2
    · rw [h2]; exact List.mem_cons_self _ _
    · exact List.mem_cons_of_mem _ h2

theorem radixMaxV_ge (arr : List Int) (h : arr ≠ []) : ∀ x ∈ arr, x ≤ radixMaxV arr := by
  match arr with
  | x :: xs =>
    intro y hy
    rw [radixMaxV]
    rcases List.mem_cons.mp hy with hy | hy
    · rw [hy]; exact (maxLoop_spec xs x).1
    · exact (maxLoop_spec xs x).2.1 y hy

/-- Correctness of `radix_sort_int` (with allocation oracles) over int32
values: the result is a sorted permutation of the input, whichever branch is
taken. -/
theorem radix_sort_intA_spec (t : VsortThresholds) (okT okO : Bool) (arr : List Int)
    (h32 : ∀ x ∈ arr, int32min ≤ x ∧ x ≤ int32max) :
    (radix_sort_intA t okT okO arr).Sorted (· ≤ ·) ∧
    (radix_sort_intA t okT okO arr).Perm arr := by
  rw [radix_sort_intA]
  split <;> rename_i h1
  · exact ⟨length_le_one_sorted arr h1, List.Perm.refl _⟩
  · have hne : arr ≠ [] := by
      intro hc
      rw [hc] at h1
      simp at h1
    split <;> rename_i h2
    · exact quicksort_int_sorts t arr hne
    · split <;> rename_i h3
      · exact quicksort_int_sorts t arr hne
      · split <;> rename_i h4
        · exact quicksort_int_sorts t arr hne
        · -- the radix path proper
          simp only [int32min, int32max] at h32
          obtain ⟨hm1, hm2⟩ := h32 _ (radixMinV_mem arr hne)
          obtain ⟨hM1, hM2⟩ := h32 _ (radixMaxV_mem arr hne)
          have hmM : radixMinV arr ≤ radixMaxV arr :=
            radixMaxV_ge arr hne _ (radixMinV_mem arr hne)
          -- the effective shift base
          have hrange : ¬(radixMinV arr < 0 ∧
              (UINT_MAX : Int) < radixMaxV arr - radixMinV arr) := h3
          simp only [UINT_MAX] at hrange
          -- shifted values are exact differences
          have hsv : ∀ x ∈ arr, (toU32 x + radixShift arr) % U32 =
              (x - (if radixMinV arr < 0 then radixMinV arr else 0)).toNat := by
            intro x hx
            obtain ⟨hx1, hx2⟩ := h32 x hx
            have hmx : radixMinV arr ≤ x := radixMinV_le arr hne x hx
            rw [toU32, radixShift, U32]
            split <;> rename_i hm
            · push_cast
              omega
            · push_cast
              omega
          have hms : radixMaxShifted arr =
              (radixMaxV arr - (if radixMinV arr < 0 then radixMinV arr else 0)).toNat := by
            rw [radixMaxShifted, toU32, U32]
            split <;> rename_i hm
            · rfl
            · omega
          have hms_le : radixMaxShifted arr ≤ UINT_MAX := by
            rw [hms, UINT_MAX]
            split <;> omega
          have htemp_bound : ∀ u ∈ arr.map (fun x => (toU32 x + radixShift arr) % U32),
              u ≤ radixMaxShifted arr := by
            intro u hu
            obtain ⟨x, hx, hxu⟩ := List.mem_map.mp hu
            rw [← hxu, hsv x hx, hms]
            have := radixMaxV_ge arr hne x hx
            split <;> omega
          have hpass_bound : radixMaxShifted arr < 2 ^ (8 * radixPassCount arr) := by
            rw [radixPassCount]
            split <;> rename_i hms0
            · have hlt : radixMaxShifted arr <
                  2 ^ (Nat.log2 (radixMaxShifted arr) + 1) := Nat.lt_log2_self
              refine lt_of_lt_of_le hlt (Nat.pow_le_pow_right (by norm_num) ?_)
              omega
            · have hz : radixMaxShifted arr = 0 := by omega
              rw [hz]
              norm_num
          have hun : ∀ u : Nat, u ≤ radixMaxShifted arr →
              ofU32 ((u + (U32 - radixShift arr)) % U32) =
                (u : Int) + (if radixMinV arr < 0 then radixMinV arr else 0) := by
            intro u hu
            have hub : (u : Int) + (if radixMinV arr < 0 then radixMinV arr else 0) ≤
                2147483647 := by
              rw [hms] at hu
              split at hu <;> split <;> omega
            rw [ofU32, radixShift, U32, UINT_MAX] at *
            split <;> rename_i hm
            · push_cast
              split <;> omega
            · push_cast
              split <;> omega
          -- sortedness
          have hsorted := radixPasses_sorted
            (arr.map (fun x => (toU32 x + radixShift arr) % U32))
            (radixPassCount arr) (radixMaxShifted arr + 1)
            (by omega) (fun u hu => by have := htemp_bound u hu; omega)
          constructor
          · rw [List.Sorted, List.pairwise_map]
            refine hsorted.imp_of_mem ?_
            intro a b ha hb hab
            have hamem := (radixPasses_perm _ _).subset ha
            have hbmem := (radixPasses_perm _ _).subset hb
            rw [hun a (htemp_bound a hamem), hun b (htemp_bound b hbmem)]
            omega
          · have hperm1 : ((radixPasses (arr.map (fun x => (toU32 x + radixShift arr) % U32))
                (radixPassCount arr)).map
                  (fun u => ofU32 ((u + (U32 - radixShift arr)) % U32))).Perm
                ((arr.map (fun x => (toU32 x + radixShift arr) % U32)).map
                  (fun u => ofU32 ((u + (U32 - radixShift arr)) % U32))) :=
              (radixPasses_perm _ _).map _
            refine hperm1.trans ?_
            rw [List.map_map]
            have : arr.map ((fun u => ofU32 ((u + (U32 - radixShift arr)) % U32)) ∘
                (fun x => (toU32 x + radixShift arr) % U32)) = arr.map id := by
              apply List.map_congr_left
              intro x hx
              obtain ⟨hx1, hx2⟩ := h32 x hx
              have hmx : radixMinV arr ≤ x := radixMinV_le arr hne x hx
              have hMx : x ≤ radixMaxV arr := radixMaxV_ge arr hne x hx
              simp only [Function.comp_apply, id]
              rw [hsv x hx]
              rw [hun ((x - (if radixMinV arr < 0 then radixMinV arr else 0)).toNat)
                (by rw [hms]; split <;> omega)]
              split <;> omega
            rw [this, List.map_id]

/-! ### Nearly-sorted heuristic (`vsort_is_nearly_sorted_int`) -/

/-- The sampling loop of `vsort_is_nearly_sorted_int`:
`for (i = 0; (i+step) < size && iter < max_iter; i += step, ++iter)`
counting inversions `arr[i] > arr[i+step]`; `c` is the remaining iteration
budget, the result is `(inversions, iterations)`. -/
def nearlyLoop (arr : List Int) (size step : Nat) : Nat → Nat → Nat → Nat → Nat × Nat
  | _, inv, obs, 0 => (inv, obs)
  | i, inv, obs, c + 1 =>
    if i + step < size then
      nearlyLoop arr size step (i + step)
        (if getI arr (i + step) < getI arr i then inv + 1 else inv) (obs + 1) c
    else (inv, obs)

/-- `sample_size = VSORT_MIN(100, VSORT_MAX(10, size/20))`. -/
def nearlySampleSize (size : Nat) : Nat := min 100 (max 10 (size / 20))

/-- `step = VSORT_MAX(1, size / sample_size)`. -/
def nearlyStep (size : Nat) : Nat := max 1 (size / nearlySampleSize size)

/-- `vsort_is_nearly_sorted_int(arr, size)` from src/vsort.c. -/
def vsort_is_nearly_sorted_int (arr : List Int) : Bool :=
  if arr.length < 20 then false
  else
    let r := nearlyLoop arr arr.length (nearlyStep arr.length) 0 0 0
      (nearlySampleSize arr.length)
    if r.2 = 0 then false
    else decide (r.1 * 10 < r.2)

/-- Closed form of the number of observations the sampling loop makes. -/
def nearlyObsSpec (arr : List Int) : Nat :=
  (List.range (nearlySampleSize arr.length)).countP
    (fun k => decide (k * nearlyStep arr.length + nearlyStep arr.length < arr.length))

/-- Closed form of the number of sampled inversions. -/
def nearlyInvSpec (arr : List Int) : Nat :=
  (List.range (nearlySampleSize arr.length)).countP
    (fun k => decide (k * nearlyStep arr.length + nearlyStep arr.length < arr.length ∧
      getI arr (k * nearlyStep arr.length + nearlyStep arr.length) <
        getI arr (k * nearlyStep arr.length)))

theorem countP_range_succ_shift (p : Nat → Bool) (c : Nat) :
    (List.range (c + 1)).countP p =
      (if p 0 then 1 else 0) + (List.range c).countP (fun j => p (j + 1)) := by
  rw [List.range_succ_eq_map, List.countP_cons, List.countP_map]
  have hcomp : (p ∘ fun x => x + 1) = (fun j => p (j + 1)) := rfl
  rw [hcomp]
  cases hp : p 0 <;> simp [hp] <;> omega

theorem countP_range_succ_shift_pos (p : Nat → Bool) (c : Nat) (hp : p 0 = true) :
    (List.range (c + 1)).countP p = 1 + (List.range c).countP (fun j => p (j + 1)) := by
  rw [countP_range_succ_shift, hp]
  simp [Nat.add_comm]

theorem countP_range_succ_shift_neg (p : Nat → Bool) (c : Nat) (hp : p 0 = false) :
    (List.range (c + 1)).countP p = (List.range c).countP (fun j => p (j + 1)) := by
  rw [countP_range_succ_shift, hp]
  simp

theorem nearlyLoop_spec (arr : List Int) (size step : Nat) :
    ∀ (c k0 inv obs : Nat),
      nearlyLoop arr size step (k0 * step) inv obs c =
        (inv + (List.range c).countP
            (fun j => decide ((k0 + j) * step + step < size ∧
              getI arr ((k0 + j) * step + step) < getI arr ((k0 + j) * step))),
          obs + (List.range c).countP
            (fun j => decide ((k0 + j) * step + step < size))) := by
  intro c
  induction c with
  | zero => intro k0 inv obs; simp [nearlyLoop]
  | succ c ih =>
    intro k0 inv obs
    have hshift1 : ((List.range c).countP (fun j => (fun k =>
        decide ((k0 + k) * step + step < size ∧
          getI arr ((k0 + k) * step + step) < getI arr ((k0 + k) * step))) (j + 1))) =
        ((List.range c).countP (fun j => decide ((k0 + 1 + j) * step + step < size ∧
          getI arr ((k0 + 1 + j) * step + step) < getI arr ((k0 + 1 + j) * step)))) := by
      congr 1
      funext j
      have hj : k0 + (j + 1) = k0 + 1 + j := by ring
      dsimp only
      rw [hj]
    have hshift2 : ((List.range c).countP (fun j => (fun k =>
        decide ((k0 + k) * step + step < size)) (j + 1))) =
        ((List.range c).countP (fun j => decide ((k0 + 1 + j) * step + step < size))) := by
      congr 1
      funext j
      have hj : k0 + (j + 1) = k0 + 1 + j := by ring
      dsimp only
      rw [hj]
    rw [nearlyLoop]
    split <;> rename_i hcond
    · have hstep_eq : k0 * step + step = (k0 + 1) * step := by ring
      have hdec : decide ((k0 + 0) * step + step < size) = true := by
        simp only [Nat.add_zero, decide_eq_true_eq]
        exact hcond
      have hB := countP_range_succ_shift_pos
        (fun j => decide ((k0 + j) * step + step < size)) c hdec
      rw [hshift2] at hB
      split <;> rename_i hinv
      · have hdecInv : decide ((k0 + 0) * step + step < size ∧
            getI arr ((k0 + 0) * step + step) < getI arr ((k0 + 0) * step)) = true := by
          simp only [Nat.add_zero, decide_eq_true_eq]
          exact ⟨hcond, hinv⟩
        have hA := countP_range_succ_shift_pos
          (fun j => decide ((k0 + j) * step + step < size ∧
            getI arr ((k0 + j) * step + step) < getI arr ((k0 + j) * step))) c hdecInv
        rw [hshift1] at hA
        have hrec := ih (k0 + 1) (inv + 1) (obs + 1)
        rw [← hstep_eq] at hrec
        rw [hrec]
        simp only [Prod.mk.injEq]
        omega
      · have hdecInv : decide ((k0 + 0) * step + step < size ∧
            getI arr ((k0 + 0) * step + step) < getI arr ((k0 + 0) * step)) = false := by
          simp only [Nat.add_zero, decide_eq_false_iff_not]
          intro hcc
          exact hinv hcc.2
        have hA := countP_range_succ_shift_neg
          (fun j => decide ((k0 + j) * step + step < size ∧
            getI arr ((k0 + j) * step + step) < getI arr ((k0 + j) * step))) c hdecInv
        rw [hshift1] at hA
        have hrec := ih (k0 + 1) inv (obs + 1)
        rw [← hstep_eq] at hrec
        rw [hrec]
        simp only [Prod.mk.injEq]
        omega
    · have hz1 : (List.range (c + 1)).countP
          (fun j => decide ((k0 + j) * step + step < size)) = 0 := by
        apply List.countP_eq_zero.mpr
        intro j hj
        simp only [decide_eq_true_eq]
        intro hc2
        have hmul : k0 * step ≤ (k0 + j) * step := Nat.mul_le_mul_right _ (by omega)
        omega
      have hz2 : (List.range (c + 1)).countP
          (fun j => decide ((k0 + j) * step + step < size ∧
            getI arr ((k0 + j) * step + step) < getI arr ((k0 + j) * step))) = 0 := by
        apply List.countP_eq_zero.mpr
        intro j hj
        simp only [decide_eq_true_eq]
        intro hc2
        have hmul : k0 * step ≤ (k0 + j) * step := Nat.mul_le_mul_right _ (by omega)
        omega
      rw [hz1, hz2]
      simp

/-- C4 (amended): the nearly-sorted heuristic returns false exactly when the
array has fewer than 20 elements (not 32, and with no 8-sample minimum) or
no observation is made; otherwise it returns true iff the count of sampled
local inversions times 10 is strictly less than the number of observations. -/
theorem vsort_is_nearly_sorted_int_characterization (arr : List Int) :
    vsort_is_nearly_sorted_int arr =
      (decide (20 ≤ arr.length) && !(nearlyObsSpec arr == 0) &&
        decide (nearlyInvSpec arr * 10 < nearlyObsSpec arr)) := by
  rw [vsort_is_nearly_sorted_int]
  have hloop := nearlyLoop_spec arr arr.length (nearlyStep arr.length)
    (nearlySampleSize arr.length) 0 0 0
  rw [Nat.zero_mul] at hloop
  split <;> rename_i hsz
  · have : ¬ 20 ≤ arr.length := by omega
    simp [this]
  · rw [hloop]
    have hobs : nearlyObsSpec arr = (List.range (nearlySampleSize arr.length)).countP
        (fun j => decide ((0 + j) * nearlyStep arr.length + nearlyStep arr.length <
          arr.length)) := by
      rw [nearlyObsSpec]
      congr 1
      funext j
      rw [Nat.zero_add]
    have hinv : nearlyInvSpec arr = (List.range (nearlySampleSize arr.length)).countP
        (fun j => decide ((0 + j) * nearlyStep arr.length + nearlyStep arr.length <
          arr.length ∧
          getI arr ((0 + j) * nearlyStep arr.length + nearlyStep arr.length) <
            getI arr ((0 + j) * nearlyStep arr.length))) := by
      rw [nearlyInvSpec]
      congr 1
      funext j
      rw [Nat.zero_add]
    rw [← hobs, ← hinv]
    dsimp only
    have h20 : decide (20 ≤ arr.length) = true := by
      simp only [decide_eq_true_eq]
      omega
    rw [h20]
    split <;> rename_i hz
    · rw [Nat.zero_add] at hz
      rw [hz]
      simp
    · rw [Nat.zero_add] at hz ⊢
      rw [Nat.zero_add]
      have : (nearlyObsSpec arr == 0) = false := by
        simp only [beq_eq_false_iff_ne, ne_eq]
        exact hz
      rw [this]
      simp

/-! ### Sequential driver (`vsort_sequential_int`) -/

/-- `vsort_sequential_int(arr, size)`: below half the parallel threshold and
below the radix threshold a nearly-sorted array goes to insertion sort;
sizes at or above the radix threshold go to radix sort; the default is the
iterative quicksort. -/
def vsort_sequential_int (t : VsortThresholds) (arr : List Int) : List Int :=
  if arr.length ≤ 1 then arr
  else if arr.length < t.parallel_threshold / 2 ∧ arr.length < t.radix_threshold ∧
      vsort_is_nearly_sorted_int arr = true then
    insertion_sort_int arr 0 (arr.length - 1)
  else if t.radix_threshold ≤ arr.length then radix_sort_int t arr
  else quicksort_int t arr 0 (arr.length - 1)

/-- Every branch of the sequential driver returns a sorted permutation
(int32-ranged input, as in the C `int` type). -/
theorem vsort_sequential_int_spec (t : VsortThresholds) (arr : List Int)
    (h32 : ∀ x ∈ arr, int32min ≤ x ∧ x ≤ int32max) :
    (vsort_sequential_int t arr).Sorted (· ≤ ·) ∧
    (vsort_sequential_int t arr).Perm arr := by
  rw [vsort_sequential_int]
  split <;> rename_i h1
  · exact ⟨length_le_one_sorted arr h1, List.Perm.refl _⟩
  · split <;> rename_i h2
    · obtain ⟨l1, p1, _, s1⟩ := insertion_sort_int_spec arr 0 (arr.length - 1) (by omega)
      refine ⟨sorted_of_slice_all _ ?_, p1⟩
      rw [l1]
      exact s1
    · split <;> rename_i h3
      · simp only [radix_sort_int]
        exact radix_sort_intA_spec t true true arr h32
      · exact quicksort_int_sorts t arr (by intro hc; rw [hc] at h1; simp at h1)

/-! ### Pairwise merge (`merge_sorted_arrays_int`) -/

/-- The two-pointer merge loop of `merge_sorted_arrays_int`, fuelled for
structural recursion.  While both sides remain the smaller head is taken
(`*p_left <= *p_right` prefers the left side); when the right side is
exhausted the remaining left elements are copied over, and when the left
side is exhausted the remaining right elements already occupy their final
slots of `arr` — either way the leftover tail is appended. -/
def mergeTPF : Nat → List Int → List Int → List Int
  | 0, xs, ys => xs ++ ys
  | _ + 1, [], ys => ys
  | _ + 1, x :: xs, [] => x :: xs
  | fuel + 1, x :: xs, y :: ys =>
    if x ≤ y then x :: mergeTPF fuel xs (y :: ys) else y :: mergeTPF fuel (x :: xs) ys

def mergeTP (xs ys : List Int) : List Int := mergeTPF (xs.length + ys.length) xs ys

theorem mergeTPF_perm : ∀ (fuel : Nat) (xs ys : List Int),
    (mergeTPF fuel xs ys).Perm (xs ++ ys)
  | 0, xs, ys => List.Perm.refl _
  | _ + 1, [], ys => by rw [mergeTPF]; exact (List.nil_append ys) ▸ List.Perm.refl _
  | _ + 1, x :: xs, [] => by rw [mergeTPF]; simp
  | fuel + 1, x :: xs, y :: ys => by
    rw [mergeTPF]
    split <;> rename_i hxy
    · exact (mergeTPF_perm fuel xs (y :: ys)).cons x
    · exact List.Perm.trans ((mergeTPF_perm fuel (x :: xs) ys).cons y)
        List.perm_middle.symm

theorem mergeTP_perm (xs ys : List Int) : (mergeTP xs ys).Perm (xs ++ ys) :=
  mergeTPF_perm _ xs ys

theorem mergeTPF_sorted : ∀ (fuel : Nat) (xs ys : List Int),
    xs.length + ys.length ≤ fuel → xs.Sorted (· ≤ ·) → ys.Sorted (· ≤ ·) →
    (mergeTPF fuel xs ys).Sorted (· ≤ ·)
  | 0, xs, ys => by
    intro hf hxs hys
    have h1 : xs = [] := by
      cases xs with
      | nil => rfl
      | cons a l => simp at hf
    have h2 : ys = [] := by
      cases ys with
      | nil => rfl
      | cons a l => rw [h1] at hf; simp at hf
    rw [h1, h2]
    exact List.sorted_nil
  | _ + 1, [], ys => by intro _ _ hys; rw [mergeTPF]; exact hys
  | _ + 1, x :: xs, [] => by intro _ hxs _; rw [mergeTPF]; exact hxs
  | fuel + 1, x :: xs, y :: ys => by
    intro hf hxs hys
    rw [mergeTPF]
    have hmemf : ∀ z ∈ mergeTPF fuel xs (y :: ys), z ∈ xs ++ (y :: ys) :=
      fun z hz => (mergeTPF_perm fuel xs (y :: ys)).subset hz
    have hmemg : ∀ z ∈ mergeTPF fuel (x :: xs) ys, z ∈ (x :: xs) ++ ys :=
      fun z hz => (mergeTPF_perm fuel (x :: xs) ys).subset hz
    split <;> rename_i hxy
    · refine List.sorted_cons.mpr ⟨?_, ?_⟩
      · intro z hz
        rcases List.mem_append.mp (hmemf z hz) with hz1 | hz1
        · exact (List.sorted_cons.mp hxs).1 z hz1
        · rcases List.mem_cons.mp hz1 with hz2 | hz2
          · rw [hz2]; exact hxy
          · exact le_trans hxy ((List.sorted_cons.mp hys).1 z hz2)
      · exact mergeTPF_sorted fuel xs (y :: ys) (by simp at hf ⊢; omega)
          (List.sorted_cons.mp hxs).2 hys
    · refine List.sorted_cons.mpr ⟨?_, ?_⟩
      · intro z hz
        rcases List.mem_append.mp (hmemg z hz) with hz1 | hz1
        · rcases List.mem_cons.mp hz1 with hz2 | hz2
          · rw [hz2]; omega
          · exact le_trans (by omega) ((List.sorted_cons.mp hxs).1 z hz2)
        · exact (List.sorted_cons.mp hys).1 z hz1
      · exact mergeTPF_sorted fuel (x :: xs) ys (by simp at hf ⊢; omega)
          hxs (List.sorted_cons.mp hys).2

theorem mergeTP_sorted (xs ys : List Int) (hxs : xs.Sorted (· ≤ ·))
    (hys : ys.Sorted (· ≤ ·)) : (mergeTP xs ys).Sorted (· ≤ ·) :=
  mergeTPF_sorted _ xs ys (le_refl _) hxs hys

/-- `merge_sorted_arrays_int(arr, temp, left, mid, right)`: after the early
return on a degenerate range, the segments `[left, mid]` and `[mid+1, right]`
are merged in place; the unwritten destination slots at the moment the left
side is exhausted hold exactly the untaken right-side elements, so the net
effect on `arr[left..right]` is the two-pointer merge of the two segments. -/
def merge_sorted_arrays_int (arr : List Int) (left mid right : Nat) : List Int :=
  if right ≤ left ∨ mid < left ∨ right ≤ mid then arr
  else arr.take left ++
    mergeTP (segN arr left (mid + 1 - left)) (segN arr (mid + 1) (right - mid)) ++
    arr.drop (right + 1)

theorem getD_out_of_bounds (l : List Int) (k : Nat) (h : l.length ≤ k) :
    l.getD k 0 = 0 := by
  rw [List.getD_eq_getElem?_getD, List.getElem?_eq_none (by omega)]
  rfl

/-- Window specification of `merge_sorted_arrays_int` on a proper range:
length preserved, permutation, untouched outside `[left, right]`, and the
window sorted whenever both halves were. -/
theorem merge_sorted_arrays_int_spec (arr : List Int) (left mid right : Nat)
    (hlm : left ≤ mid) (hmr : mid < right) (hr : right < arr.length)
    (hs1 : sortedSlice arr left mid) (hs2 : sortedSlice arr (mid + 1) right) :
    (merge_sorted_arrays_int arr left mid right).length = arr.length ∧
    (merge_sorted_arrays_int arr left mid right).Perm arr ∧
    (∀ k, k < left ∨ right < k →
      getI (merge_sorted_arrays_int arr left mid right) k = getI arr k) ∧
    sortedSlice (merge_sorted_arrays_int arr left mid right) left right := by
  rw [merge_sorted_arrays_int, if_neg (by omega)]
  set s1 := segN arr left (mid + 1 - left) with hs1def
  set s2 := segN arr (mid + 1) (right - mid) with hs2def
  set M := mergeTP s1 s2 with hMdef
  have hlen1 : s1.length = mid + 1 - left := segN_length _ _ _ (by omega)
  have hlen2 : s2.length = right - mid := segN_length _ _ _ (by omega)
  have hMlen : M.length = right + 1 - left := by
    have hp := (mergeTP_perm s1 s2).length_eq
    rw [List.length_append, hlen1, hlen2] at hp
    rw [hMdef, hp]
    omega
  have htlen : (arr.take left).length = left := by simp; omega
  have hm1 : left + (mid + 1 - left) = mid + 1 := by omega
  have hd1 := segN_decomp arr left (mid + 1 - left) (by omega)
  rw [hm1, ← hs1def] at hd1
  have hd2 : arr.drop (mid + 1) = s2 ++ arr.drop (right + 1) := by
    have hh : s2 = (arr.drop (mid + 1)).take (right - mid) := rfl
    have h3 : (arr.drop (mid + 1)).drop (right - mid) = arr.drop (right + 1) := by
      rw [List.drop_drop]
      congr 1
      omega
    rw [hh, ← h3, List.take_append_drop]
  have harr : arr = (arr.take left ++ s1) ++ (s2 ++ arr.drop (right + 1)) := by
    conv_lhs => rw [hd1]
    rw [hd2]
  -- access to the three regions of the result
  have hgetL : ∀ k, k < left →
      getI (arr.take left ++ M ++ arr.drop (right + 1)) k = getI arr k := by
    intro k hk
    rw [getI, List.getD_append]
    · rw [List.getD_append]
      · rw [← getI]
        rw [getI_eq_getElem _ _ (by rw [htlen]; omega), getI_eq_getElem _ _ (by omega)]
        exact List.getElem_take _
      · omega
    · rw [List.length_append, htlen, hMlen]
      omega
  have hgetH : ∀ k, right < k →
      getI (arr.take left ++ M ++ arr.drop (right + 1)) k = getI arr k := by
    intro k hk
    rw [getI, List.getD_append_right _ _ _ _
      (by rw [List.length_append, htlen, hMlen]; omega)]
    rcases Nat.lt_or_ge k arr.length with hkl | hkl
    · rw [← getI]
      have hidx : k - (arr.take left ++ M).length < (arr.drop (right + 1)).length := by
        rw [List.length_append, htlen, hMlen]
        simp
        omega
      rw [getI_eq_getElem _ _ hidx, getI_eq_getElem _ _ hkl]
      rw [List.getElem_drop]
      congr 1
      rw [List.length_append, htlen, hMlen]
      omega
    · rw [getD_out_of_bounds _ _ (by simp; omega), getI,
        getD_out_of_bounds _ _ (by omega)]
  have hgetM : ∀ k, left ≤ k → k ≤ right →
      getI (arr.take left ++ M ++ arr.drop (right + 1)) k = getI M (k - left) := by
    intro k hk1 hk2
    rw [getI, List.getD_append]
    · rw [List.getD_append_right _ _ _ _ (by rw [htlen]; omega)]
      rw [← getI, htlen]
    · rw [List.length_append, htlen, hMlen]
      omega
  refine ⟨?_, ?_, ?_, ?_⟩
  · simp only [List.length_append, htlen, hMlen]
    simp
    omega
  · have hP : (arr.take left ++ M ++ arr.drop (right + 1)).Perm
        ((arr.take left ++ (s1 ++ s2)) ++ arr.drop (right + 1)) :=
      List.Perm.append_right _ (List.Perm.append_left _ (mergeTP_perm s1 s2))
    have heq : ((arr.take left ++ (s1 ++ s2)) ++ arr.drop (right + 1)) =
        (arr.take left ++ s1) ++ (s2 ++ arr.drop (right + 1)) := by
      simp [List.append_assoc]
    rw [heq] at hP
    exact hP.trans (harr ▸ List.Perm.refl _)
  · intro k hk
    rcases hk with hk | hk
    · exact hgetL k hk
    · exact hgetH k hk
  · have hsort1 : s1.Sorted (· ≤ ·) := by
      rw [sorted_iff_getI]
      intro a b hab hb
      rw [hlen1] at hb
      rw [hs1def, getI_segN _ _ _ _ (by omega) (by omega),
        getI_segN _ _ _ _ (by omega) (by omega)]
      exact hs1 (left + a) (left + b) (by omega) (by omega) (by omega)
    have hsort2 : s2.Sorted (· ≤ ·) := by
      rw [sorted_iff_getI]
      intro a b hab hb
      rw [hlen2] at hb
      rw [hs2def, getI_segN _ _ _ _ (by omega) (by omega),
        getI_segN _ _ _ _ (by omega) (by omega)]
      exact hs2 (mid + 1 + a) (mid + 1 + b) (by omega) (by omega) (by omega)
    have hMsort := mergeTP_sorted s1 s2 hsort1 hsort2
    rw [sorted_iff_getI] at hMsort
    intro i j hi hij hj
    rw [hgetM i hi (by omega), hgetM j (by omega) (by omega)]
    exact hMsort (i - left) (j - left) (by omega) (by rw [hMlen]; omega)

/-! ### Parallel driver (`vsort_parallel_int`)

Claim C3 models the parallel schedule executed without interleaving: the
chunk sorts of phase 1 touch pairwise disjoint index ranges, and each merge
round of phase 2 joins before the width doubles, so the sequentialised
schedule computes the same array. -/

/-- Hardware profile detected at init (`vsort_hardware_t`): the fields read
by threshold calibration and by the parallel driver. -/
structure VsortHardware where
  total_cores : Nat
  performance_cores : Nat
  l1_cache_size : Nat
  l2_cache_size : Nat
  cache_line_size : Nat
  has_neon : Bool
  simd_width : Nat

/-- Phase 1 of `vsort_parallel_int`: the `for (i = 0; i < num_chunks; i++)`
chunk-sort loop (each chunk `[i*chunk_size, min(i*chunk_size+chunk_size-1,
size-1)]` is quicksorted when non-degenerate), fuelled by the remaining
chunk count. -/
def chunkPhase (t : VsortThresholds) (cs size : Nat) : Nat → Nat → List Int → List Int
  | 0, _, arr => arr
  | fuel + 1, i, arr =>
    chunkPhase t cs size fuel (i + 1)
      (if i * cs ≤ min (i * cs + cs - 1) (size - 1) then
        quicksort_int t arr (i * cs) (min (i * cs + cs - 1) (size - 1))
      else arr)

/-- One merge round of phase 2: `for (left = 0; left < size; left += 2*width)`
with `mid = min(left+width-1, size-1)`, `right = min(left+2*width-1, size-1)`,
merging only when `mid < right`. -/
def mergeRoundGo (w size : Nat) : Nat → Nat → List Int → List Int
  | 0, _, arr => arr
  | fuel + 1, left, arr =>
    if size ≤ left then arr
    else
      mergeRoundGo w size fuel (left + 2 * w)
        (if min (left + w - 1) (size - 1) < min (left + 2 * w - 1) (size - 1) then
          merge_sorted_arrays_int arr left (min (left + w - 1) (size - 1))
            (min (left + 2 * w - 1) (size - 1))
        else arr)

/-- The width-doubling loop of phase 2:
`for (width = chunk_size; width < size; width *= 2)`. -/
def mergeRounds (size : Nat) : Nat → Nat → List Int → List Int
  | 0, _, arr => arr
  | fuel + 1, w, arr =>
    if size ≤ w then arr
    else mergeRounds size fuel (2 * w) (mergeRoundGo w size size 0 arr)

/-- `num_cores_to_use` of `vsort_parallel_int`. -/
def vsortNumCores (hw : VsortHardware) : Nat :=
  let c := if 0 < hw.performance_cores then hw.performance_cores else hw.total_cores
  if c = 0 then 1 else c

/-- `max_concurrent_tasks` of `vsort_parallel_int`. -/
def vsortMaxTasks (hw : VsortHardware) : Nat := max 2 (vsortNumCores hw * 2)

/-- `min_chunk_size` of `vsort_parallel_int`. -/
def vsortMinChunk (t : VsortThresholds) : Nat :=
  max (t.insertion_threshold * 2) t.cache_optimal_elements

/-- `desired_chunk_size` of `vsort_parallel_int`. -/
def vsortDesiredChunk (t : VsortThresholds) (hw : VsortHardware) (size : Nat) : Nat :=
  max (vsortMinChunk t) (size / vsortMaxTasks hw)

/-- `num_chunks` of `vsort_parallel_int` after the clamp. -/
def vsortNumChunks (t : VsortThresholds) (hw : VsortHardware) (size : Nat) : Nat :=
  max 1 (min ((size + vsortDesiredChunk t hw size - 1) / vsortDesiredChunk t hw size)
    (size / t.insertion_threshold))

/-- `chunk_size` of `vsort_parallel_int`. -/
def vsortChunkSize (t : VsortThresholds) (hw : VsortHardware) (size : Nat) : Nat :=
  (size + vsortNumChunks t hw size - 1) / vsortNumChunks t hw size

/-- `vsort_parallel_int(arr, size)` with the allocation oracle for the merge
buffer `temp`; below the parallel threshold, and on allocation failure, it
falls back to the sequential driver. -/
def vsort_parallel_intA (t : VsortThresholds) (hw : VsortHardware)
    (tempAllocOk : Bool) (arr : List Int) : List Int :=
  if arr.length < t.parallel_threshold then vsort_sequential_int t arr
  else if tempAllocOk = false then vsort_sequential_int t arr
  else
    mergeRounds arr.length arr.length (vsortChunkSize t hw arr.length)
      (chunkPhase t (vsortChunkSize t hw arr.length) arr.length
        (vsortNumChunks t hw arr.length) 0 arr)

/-- A slice ordering transfers along pointwise equality of the window. -/
theorem sortedSlice_congr (a b : List Int) (lo hi : Nat)
    (h : ∀ p, lo ≤ p → p ≤ hi → getI a p = getI b p)
    (hs : sortedSlice b lo hi) : sortedSlice a lo hi := by
  intro i j hi1 hij hj
  rw [h i hi1 (by omega), h j (by omega) (by omega)]
  exact hs i j hi1 hij hj

/-- Phase 1 invariant: once every chunk start at or beyond `size` has been
reached, all `cs`-wide blocks of the array are sorted, and the array is a
permutation of the input. -/
theorem chunkPhase_spec (t : VsortThresholds) (cs size : Nat) (hcs : 0 < cs)
    (hsz : 0 < size) :
    ∀ (fuel i : Nat) (arr : List Int), arr.length = size →
      size ≤ (i + fuel) * cs →
      (∀ j, j < i → sortedSlice arr (j * cs) (min (j * cs + cs) size - 1)) →
      (chunkPhase t cs size fuel i arr).length = size ∧
      (chunkPhase t cs size fuel i arr).Perm arr ∧
      (∀ j, sortedSlice (chunkPhase t cs size fuel i arr) (j * cs)
        (min (j * cs + cs) size - 1)) := by
  intro fuel
  induction fuel with
  | zero =>
    intro i arr hlen hfuel hA
    rw [chunkPhase]
    refine ⟨hlen, List.Perm.refl _, ?_⟩
    intro j
    rcases Nat.lt_or_ge j i with hj | hj
    · exact hA j hj
    · intro a b h1 h2 h3
      have hmul : i * cs ≤ j * cs := Nat.mul_le_mul_right _ hj
      rw [Nat.add_zero] at hfuel
      omega
  | succ fuel ih =>
    intro i arr hlen hfuel hA
    rw [chunkPhase]
    have hfuel1 : size ≤ (i + 1 + fuel) * cs := by
      rw [show i + 1 + fuel = i + (fuel + 1) by omega]
      exact hfuel
    split <;> rename_i hguard
    · have he : i * cs < size := by omega
      set e := min (i * cs + cs - 1) (size - 1) with hedef
      obtain ⟨l1, p1, u1, s1⟩ := quicksort_int_spec t arr (i * cs) e
        (by rw [hlen]; omega)
      have hres := ih (i + 1) (quicksort_int t arr (i * cs) e)
        (by rw [l1, hlen]) hfuel1 ?_
      · exact ⟨hres.1, hres.2.1.trans p1, hres.2.2⟩
      · intro j hj
        rcases Nat.lt_or_ge j i with hji | hji
        · refine sortedSlice_congr _ _ _ _ ?_ (hA j hji)
          intro p hp1 hp2
          have hmul : (j + 1) * cs ≤ i * cs := Nat.mul_le_mul_right _ (by omega)
          apply u1
          left
          have : (j + 1) * cs = j * cs + cs := by ring
          omega
        · have hji' : j = i := by omega
          rw [hji']
          have hei : min (i * cs + cs) size - 1 = e := by omega
          rw [hei]
          exact s1
    · have he : size ≤ i * cs := by omega
      apply ih (i + 1) arr hlen hfuel1
      intro j hj
      rcases Nat.lt_or_ge j i with hji | hji
      · exact hA j hji
      · have hji' : j = i := by omega
        rw [hji']
        intro a b h1 h2 h3
        omega

/-- Phase 2, one round: if every `w`-block is sorted before the round, every
`2w`-block is sorted after it, and the round permutes the array. -/
theorem mergeRoundGo_spec (w size : Nat) (hw0 : 0 < w) :
    ∀ (fuel k : Nat) (arr : List Int), arr.length = size →
      size ≤ k * (2 * w) + fuel →
      (∀ i, i < k →
        sortedSlice arr (i * (2 * w)) (min (i * (2 * w) + 2 * w) size - 1)) →
      (∀ i, 2 * k ≤ i → sortedSlice arr (i * w) (min (i * w + w) size - 1)) →
      (mergeRoundGo w size fuel (k * (2 * w)) arr).length = size ∧
      (mergeRoundGo w size fuel (k * (2 * w)) arr).Perm arr ∧
      (∀ i, sortedSlice (mergeRoundGo w size fuel (k * (2 * w)) arr)
        (i * (2 * w)) (min (i * (2 * w) + 2 * w) size - 1)) := by
  intro fuel
  induction fuel with
  | zero =>
    intro k arr hlen hfuel hA hB
    rw [mergeRoundGo]
    refine ⟨hlen, List.Perm.refl _, ?_⟩
    intro i
    rcases Nat.lt_or_ge i k with hik | hik
    · exact hA i hik
    · intro a b h1 h2 h3
      have hmul : k * (2 * w) ≤ i * (2 * w) := Nat.mul_le_mul_right _ hik
      omega
  | succ fuel ih =>
    intro k arr hlen hfuel hA hB
    rw [mergeRoundGo]
    split <;> rename_i hexit
    · refine ⟨hlen, List.Perm.refl _, ?_⟩
      intro i
      rcases Nat.lt_or_ge i k with hik | hik
      · exact hA i hik
      · intro a b h1 h2 h3
        have hmul : k * (2 * w) ≤ i * (2 * w) := Nat.mul_le_mul_right _ hik
        omega
    · set left := k * (2 * w) with hleft
      have hstep : left + 2 * w = (k + 1) * (2 * w) := by rw [hleft]; ring
      have h2kw : 2 * k * w = left := by rw [hleft]; ring
      have h2k1w : (2 * k + 1) * w = left + w := by rw [hleft]; ring
      have h2k2w : 2 * (k + 1) * w = left + 2 * w := by rw [hleft]; ring
      split <;> rename_i hmr
      · have hlw : left + w < size := by omega
        have hm : min (left + w - 1) (size - 1) = left + w - 1 := by omega
        have hb0 := hB (2 * k) (le_refl _)
        rw [h2kw] at hb0
        have hb0' : min (left + w) size - 1 = left + w - 1 := by omega
        rw [hb0'] at hb0
        have hb1 := hB (2 * k + 1) (by omega)
        rw [h2k1w] at hb1
        have hb1' : min (left + w + w) size - 1 = min (left + 2 * w - 1) (size - 1) := by
          omega
        rw [hb1'] at hb1
        rw [hm]
        have hb1'' : left + w = left + w - 1 + 1 := by omega
        rw [hb1''] at hb1
        obtain ⟨l1, p1, u1, s1⟩ := merge_sorted_arrays_int_spec arr left
          (left + w - 1) (min (left + 2 * w - 1) (size - 1))
          (by omega) (by omega) (by rw [hlen]; omega) hb0 hb1
        have hres := ih (k + 1)
          (merge_sorted_arrays_int arr left (left + w - 1)
            (min (left + 2 * w - 1) (size - 1)))
          (by rw [l1, hlen]) (by omega) ?_ ?_
        rw [← hstep] at hres
        · exact ⟨hres.1, hres.2.1.trans p1, hres.2.2⟩
        · intro i hik
          rcases Nat.lt_or_ge i k with hik' | hik'
          · refine sortedSlice_congr _ _ _ _ ?_ (hA i hik')
            intro p hp1 hp2
            apply u1
            left
            have hmul : (i + 1) * (2 * w) ≤ k * (2 * w) := Nat.mul_le_mul_right _ (by omega)
            have hil : (i + 1) * (2 * w) = i * (2 * w) + 2 * w := by ring
            omega
          · have hik'' : i = k := by omega
            rw [hik'']
            have hr : min (left + 2 * w) size - 1 = min (left + 2 * w - 1) (size - 1) := by
              omega
            rw [hr]
            exact s1
        · intro i hik
          refine sortedSlice_congr _ _ _ _ ?_ (hB i (by omega))
          intro p hp1 hp2
          apply u1
          right
          have hmul : 2 * (k + 1) * w ≤ i * w := Nat.mul_le_mul_right _ hik
          omega
      · have hlw : size ≤ left + w := by omega
        rw [hstep]
        apply ih (k + 1) arr hlen (by omega)
        · intro i hik
          rcases Nat.lt_or_ge i k with hik' | hik'
          · exact hA i hik'
          · have hik'' : i = k := by omega
            rw [hik'']
            have hb0 := hB (2 * k) (le_refl _)
            rw [h2kw] at hb0
            have e1 : min (left + w) size - 1 = size - 1 := by omega
            have e2 : min (left + 2 * w) size - 1 = size - 1 := by omega
            rw [e1] at hb0
            rw [e2]
            exact hb0
        · intro i hik
          exact hB i (by omega)

/-- Phase 2: once the width reaches the array size the single remaining
block is the whole array, which is therefore sorted. -/
theorem mergeRounds_spec (size : Nat) :
    ∀ (fuel w : Nat) (arr : List Int), arr.length = size → 0 < w →
      size ≤ w * 2 ^ fuel →
      (∀ i, sortedSlice arr (i * w) (min (i * w + w) size - 1)) →
      (mergeRounds size fuel w arr).length = size ∧
      (mergeRounds size fuel w arr).Perm arr ∧
      (mergeRounds size fuel w arr).Sorted (· ≤ ·) := by
  intro fuel
  induction fuel with
  | zero =>
    intro w arr hlen hw hfuel hB
    rw [mergeRounds]
    refine ⟨hlen, List.Perm.refl _, ?_⟩
    have hb0 := hB 0
    rw [Nat.zero_mul] at hb0
    have he : min (0 + w) size - 1 = size - 1 := by
      simp only [pow_zero, Nat.mul_one] at hfuel
      omega
    rw [he] at hb0
    apply sorted_of_slice_all
    rw [hlen]
    exact hb0
  | succ fuel ih =>
    intro w arr hlen hw hfuel hB
    rw [mergeRounds]
    split <;> rename_i hexit
    · refine ⟨hlen, List.Perm.refl _, ?_⟩
      have hb0 := hB 0
      rw [Nat.zero_mul] at hb0
      have he : min (0 + w) size - 1 = size - 1 := by omega
      rw [he] at hb0
      apply sorted_of_slice_all
      rw [hlen]
      exact hb0
    · have hgo := mergeRoundGo_spec w size hw size 0 arr hlen
        (by simp) (by intro i h; exact absurd h (Nat.not_lt_zero i))
        (by intro i _; exact hB i)
      rw [Nat.zero_mul] at hgo
      obtain ⟨l1, p1, s1⟩ := hgo
      have hres := ih (2 * w) (mergeRoundGo w size size 0 arr) l1 (by omega)
        (by
          have hpow : 2 * w * 2 ^ fuel = w * 2 ^ (fuel + 1) := by ring
          omega)
        s1
      exact ⟨hres.1, hres.2.1.trans p1, hres.2.2⟩

/-- On an empty array phase 1 is the identity (every chunk is degenerate or
an empty quicksort). -/
theorem chunkPhase_nil (t : VsortThresholds) (cs : Nat) :
    ∀ (fuel i : Nat), chunkPhase t cs 0 fuel i [] = [] := by
  intro fuel
  induction fuel with
  | zero => intro i; rw [chunkPhase]
  | succ fuel ih =>
    intro i
    rw [chunkPhase]
    have harg : (if i * cs ≤ min (i * cs + cs - 1) (0 - 1) then
        quicksort_int t [] (i * cs) (min (i * cs + cs - 1) (0 - 1))
      else ([] : List Int)) = [] := by
      split <;> rename_i hg
      · rw [quicksort_int, quicksort_intA, if_pos (by omega)]
      · rfl
    rw [harg]
    exact ih (i + 1)

/-- The sequentialised parallel driver returns a sorted permutation. -/
theorem vsort_parallel_intA_spec (t : VsortThresholds) (hw : VsortHardware)
    (ok : Bool) (arr : List Int)
    (h32 : ∀ x ∈ arr, int32min ≤ x ∧ x ≤ int32max) :
    (vsort_parallel_intA t hw ok arr).Sorted (· ≤ ·) ∧
    (vsort_parallel_intA t hw ok arr).Perm arr := by
  rw [vsort_parallel_intA]
  split <;> rename_i h1
  · exact vsort_sequential_int_spec t arr h32
  · split <;> rename_i h2
    · exact vsort_sequential_int_spec t arr h32
    · rcases Nat.eq_zero_or_pos arr.length with hsz | hsz
      · have harr : arr = [] := List.length_eq_zero.mp hsz
        subst harr
        simp only [List.length_nil]
        rw [chunkPhase_nil, mergeRounds]
        exact ⟨List.sorted_nil, List.Perm.refl _⟩
      · set size := arr.length with hsizedef
        set nc := vsortNumChunks t hw size with hncdef
        set cs := vsortChunkSize t hw size with hcsdef
        have hnc0 : 0 < nc := by
          rw [hncdef, vsortNumChunks]
          omega
        have hdm := Nat.div_add_mod (size + nc - 1) nc
        have hmlt := Nat.mod_lt (size + nc - 1) hnc0
        have hcseq : cs = (size + nc - 1) / nc := by
          rw [hcsdef, vsortChunkSize, ← hncdef]
        rw [← hcseq] at hdm
        have hcs0 : 0 < cs := by
          rcases Nat.eq_zero_or_pos cs with hc | hc
          · rw [hc] at hdm
            omega
          · exact hc
        have hcover : size ≤ (0 + nc) * cs := by
          rw [Nat.zero_add]
          have : nc * cs = cs * nc := by ring
          omega
        have hphase := chunkPhase_spec t cs size hcs0 hsz nc 0 arr rfl
          (by
            have hmm : nc * cs = cs * nc := by ring
            omega)
          (by intro j hj; exact absurd hj (Nat.not_lt_zero j))
        obtain ⟨l1, p1, s1⟩ := hphase
        have hpow : size ≤ cs * 2 ^ size := by
          have h2p := Nat.lt_two_pow size
          have hmul : 1 * 2 ^ size ≤ cs * 2 ^ size :=
            Nat.mul_le_mul_right _ hcs0
          omega
        have hres := mergeRounds_spec size size cs
          (chunkPhase t cs size nc 0 arr) l1 hcs0 hpow s1
        exact ⟨hres.2.2, hres.2.1.trans p1⟩

/-! ### Public entry point (`vsort`) -/

/-- `vsort(arr, n)`: arrays of more than one element below the parallel
threshold go to the sequential driver; at or above it the parallel driver is
used on Apple arm64 builds (`apple = true`) and the sequential driver
elsewhere. -/
def vsort (t : VsortThresholds) (hw : VsortHardware) (apple : Bool)
    (arr : List Int) : List Int :=
  if arr.length ≤ 1 then arr
  else if arr.length < t.parallel_threshold then vsort_sequential_int t arr
  else if apple then vsort_parallel_intA t hw true arr
  else vsort_sequential_int t arr

/-- C1: for every int32 array, `vsort` terminates with a permutation of its
input in non-decreasing order, for every choice of platform flag and
thresholds — hence for every sequential strategy it dispatches to
(nearly-sorted insertion sort, radix sort, or iterative quicksort). -/
theorem vsort_spec (t : VsortThresholds) (hw : VsortHardware) (apple : Bool)
    (arr : List Int) (h32 : ∀ x ∈ arr, int32min ≤ x ∧ x ≤ int32max) :
    (vsort t hw apple arr).Sorted (· ≤ ·) ∧ (vsort t hw apple arr).Perm arr := by
  rw [vsort]
  split <;> rename_i h1
  · exact ⟨length_le_one_sorted arr h1, List.Perm.refl _⟩
  · split <;> rename_i h2
    · exact vsort_sequential_int_spec t arr h32
    · split <;> rename_i h3
      · exact vsort_parallel_intA_spec t hw true arr h32
      · exact vsort_sequential_int_spec t arr h32

/-! ### Threshold calibration (`vsort_calibrate_thresholds`) -/

/-- The `effective_cores` computed by the calibrator — textually the same
computation as `num_cores_to_use` in the parallel driver
(`performance_cores` if positive, else `total_cores`, clamped to ≥ 1). -/
def calibParallelBase (hw : VsortHardware) : Nat :=
  if 8 ≤ vsortNumCores hw then 50000
  else if 4 ≤ vsortNumCores hw then 75000
  else 150000

/-- The parallel threshold after the L2-per-core refinement. -/
def calibParallel (hw : VsortHardware) : Nat :=
  if 0 < hw.l2_cache_size then
    max 10000 (min (calibParallelBase hw)
      (if 0 < hw.l2_cache_size / vsortNumCores hw then
        hw.l2_cache_size / vsortNumCores hw / 4 * 4
      else calibParallelBase hw))
  else max 10000 (calibParallelBase hw)

/-- `vsort_calibrate_thresholds()` as a function of the detected hardware
profile (`sizeof(int)` is 4 throughout). -/
def vsort_calibrate_thresholds (hw : VsortHardware) : VsortThresholds :=
  { insertion_threshold :=
      max 8 (min 32 (if 0 < hw.cache_line_size then hw.cache_line_size / 4 else 16)),
    vector_threshold :=
      if hw.has_neon = true ∧ 0 < hw.simd_width then max 32 (hw.simd_width / 4 * 4)
      else 64,
    parallel_threshold := calibParallel hw,
    radix_threshold :=
      if 0 < hw.l2_cache_size then max 100000 (hw.l2_cache_size / 4) else 500000,
    cache_optimal_elements :=
      if 0 < hw.l1_cache_size then hw.l1_cache_size / 4 else 8192 }

/-! ### `vsort_char` via the libc `qsort` contract

`qsort` is external to the repository; it is modelled by its C-standard
contract — the array is permuted so that consecutive elements compare
`<= 0` under the supplied comparator — instantiated as an insertion sort
over the comparator's induced order. -/

def insertBy (le : Int → Int → Bool) (x : Int) : List Int → List Int
  | [] => [x]
  | y :: ys => if le x y then x :: y :: ys else y :: insertBy le x ys

def qsortModel (le : Int → Int → Bool) (l : List Int) : List Int :=
  l.foldr (insertBy le) []

/-- The `(unsigned char)` reinterpretation of a (possibly signed) char. -/
def ucharOf (x : Int) : Int := x % 256

/-- `default_char_comparator`: compares the operands as unsigned chars. -/
def default_char_comparator (a b : Int) : Int := ucharOf a - ucharOf b

/-- `vsort_char(arr, n)`: a `qsort` under `default_char_comparator`. -/
def vsort_char (arr : List Int) : List Int :=
  if arr.length ≤ 1 then arr
  else qsortModel (fun a b => default_char_comparator a b ≤ 0) arr

theorem insertBy_perm (le : Int → Int → Bool) (x : Int) :
    ∀ l : List Int, (insertBy le x l).Perm (x :: l)
  | [] => List.Perm.refl _
  | y :: ys => by
    rw [insertBy]
    split <;> rename_i h
    · exact List.Perm.refl _
    · exact ((insertBy_perm le x ys).cons y).trans (List.Perm.swap x y ys)

theorem qsortModel_perm (le : Int → Int → Bool) :
    ∀ l : List Int, (qsortModel le l).Perm l
  | [] => List.Perm.refl _
  | x :: xs => by
    rw [qsortModel, List.foldr_cons]
    exact (insertBy_perm le x _).trans ((qsortModel_perm le xs).cons x)

theorem insertBy_pairwise (le : Int → Int → Bool)
    (htot : ∀ a b, le a b = true ∨ le b a = true)
    (htrans : ∀ a b c, le a b = true → le b c = true → le a c = true) (x : Int) :
    ∀ l : List Int, l.Pairwise (fun a b => le a b = true) →
      (insertBy le x l).Pairwise (fun a b => le a b = true)
  | [] => by intro _; rw [insertBy]; exact List.pairwise_singleton _ _
  | y :: ys => by
    intro hp
    rw [insertBy]
    obtain ⟨hy, hys⟩ := List.pairwise_cons.mp hp
    split <;> rename_i h
    · refine List.pairwise_cons.mpr ⟨?_, hp⟩
      intro z hz
      rcases List.mem_cons.mp hz with hz1 | hz1
      · rw [hz1]; exact h
      · exact htrans x y z h (hy z hz1)
    · refine List.pairwise_cons.mpr ⟨?_, insertBy_pairwise le htot htrans x ys hys⟩
      intro z hz
      have hz2 := (insertBy_perm le x ys).subset hz
      rcases List.mem_cons.mp hz2 with hz1 | hz1
      · rw [hz1]
        rcases htot x y with hxy | hxy
        · exact absurd hxy h
        · exact hxy
      · exact hy z hz1

theorem qsortModel_pairwise (le : Int → Int → Bool)
    (htot : ∀ a b, le a b = true ∨ le b a = true)
    (htrans : ∀ a b c, le a b = true → le b c = true → le a c = true) :
    ∀ l : List Int, (qsortModel le l).Pairwise (fun a b => le a b = true)
  | [] => by simp [qsortModel]
  | x :: xs => by
    rw [qsortModel, List.foldr_cons]
    exact insertBy_pairwise le htot htrans x _ (qsortModel_pairwise le htot htrans xs)

/-! ### Stack-usage instrumentation of `quicksort_int` -/

/-- Instrumented twin of `qsLoop` returning the maximum stack length (in
ranges; the C stack holds two `int`s per range, 2048 in total) observed over
the whole run, including the popped range. -/
def qsLoopMS (t : VsortThresholds) : Nat → List Int → List (Nat × Nat) → Nat
  | 0, _, st => st.length
  | _ + 1, _, [] => 0
  | fuel + 1, arr, (low, high) :: rest =>
    max (rest.length + 1)
      (if high + 1 - low < t.insertion_threshold then
        qsLoopMS t fuel (insertion_sort_int arr low high) rest
      else if 1023 ≤ rest.length then
        qsLoopMS t fuel (insertion_sort_int (partition_int arr low high).1 low high) rest
      else
        qsLoopMS t fuel (partition_int arr low high).1
          (qsPush low high (partition_int arr low high).2 rest))

theorem qsPush_length_le (low high p : Nat) (rest : List (Nat × Nat)) :
    (qsPush low high p rest).length ≤ rest.length + 2 := by
  rw [qsPush]
  split <;> split <;> simp

/-- The capacity guard keeps the stack within 1024 ranges (= 2048 ints). -/
theorem qsLoopMS_bound (t : VsortThresholds) :
    ∀ (fuel : Nat) (arr : List Int) (st : List (Nat × Nat)),
      st.length ≤ 1024 → qsLoopMS t fuel arr st ≤ 1024 := by
  intro fuel
  induction fuel with
  | zero => intro arr st h; rw [qsLoopMS]; exact h
  | succ fuel ih =>
    intro arr st h
    match st with
    | [] => rw [qsLoopMS]; omega
    | (low, high) :: rest =>
      rw [qsLoopMS]
      simp only [List.length_cons] at h
      refine max_le (by omega) ?_
      split <;> rename_i h1
      · exact ih _ rest (by omega)
      · split <;> rename_i h2
        · exact ih _ rest (by omega)
        · refine ih _ _ ?_
          have := qsPush_length_le low high (partition_int arr low high).2 rest
          omega

/-! ### Partition-depth instrumentation of `quicksort_int` -/

/-- `qsPush` with a depth tag: children of a partitioned range at depth `d`
are pushed at depth `d + 1`. -/
def qsPushD (d low high p : Nat) (rest : List (Nat × Nat × Nat)) :
    List (Nat × Nat × Nat) :=
  let st1 := if p + 1 < high then (d + 1, p + 1, high) :: rest else rest
  if low < p - 1 then (d + 1, low, p - 1) :: st1 else st1

/-- Depth-instrumented twin of `qsLoop`: returns the maximum depth at which
a partition is performed over the run (0 if none). -/
def qsDepthLoop (t : VsortThresholds) : Nat → List Int → List (Nat × Nat × Nat) → Nat
  | 0, _, _ => 0
  | _ + 1, _, [] => 0
  | fuel + 1, arr, (d, low, high) :: rest =>
    if high + 1 - low < t.insertion_threshold then
      qsDepthLoop t fuel (insertion_sort_int arr low high) rest
    else if 1023 ≤ rest.length then
      max d (qsDepthLoop t fuel
        (insertion_sort_int (partition_int arr low high).1 low high) rest)
    else
      max d (qsDepthLoop t fuel (partition_int arr low high).1
        (qsPushD d low high (partition_int arr low high).2 rest))

/-- Maximum partition depth of a `quicksort_int(arr, low, high)` call. -/
def qsMaxPartDepth (t : VsortThresholds) (arr : List Int) (low high : Nat) : Nat :=
  if high ≤ low then 0
  else if high + 1 - low < t.insertion_threshold then 0
  else qsDepthLoop t (high + 2 - low) arr [(0, low, high)]

/-! ### `vsort_sort` (public dispatcher entry point)

Modelled from the spec: `vsort_sort` is declared in `vsort.h` but has no
implementation in the repository sources, so the embedding follows the
spec's dispatcher contract (§4.6): validation first — null data with
nonzero length, or a Generic request without a comparator or with zero
element size, yields InvalidArgument — then the count ≤ 1 no-op returning
Ok, then the per-kind engines, each returning Ok. -/

inductive VsortKind where
  | int32
  | float32
  | char8
  | generic
deriving DecidableEq

inductive VsortResult where
  | ok
  | errInvalidArgument
  | errAllocationFailed
  | errUnsupportedType
deriving DecidableEq

/-- `vsort_options_t`: the data buffer is modelled as a list (with a
separate null flag), the generic comparator as a boolean `≤` test. -/
structure VsortRequest where
  dataNull : Bool
  data : List Int
  length : Nat
  element_size : Nat
  kind : VsortKind
  hasComparator : Bool
  cmpLe : Int → Int → Bool

/-- Modelled from the spec: the §4.6 dispatcher `sort(request)`, returning
the outcome together with the (possibly sorted) buffer contents. -/
def vsort_sort (t : VsortThresholds) (req : VsortRequest) : VsortResult × List Int :=
  if req.dataNull = true ∧ req.length ≠ 0 then (.errInvalidArgument, req.data)
  else if req.kind = .generic ∧ (req.hasComparator = false ∨ req.element_size = 0) then
    (.errInvalidArgument, req.data)
  else if req.length ≤ 1 then (.ok, req.data)
  else
    match req.kind with
    | .int32 => (.ok, vsort_sequential_int t req.data)
    | .float32 => (.ok, quicksort_int t req.data 0 (req.data.length - 1))
    | .char8 => (.ok, qsortModel (fun a b => default_char_comparator a b ≤ 0) req.data)
    | .generic => (.ok, qsortModel req.cmpLe req.data)

/-! ### Claim theorems and witnesses -/

/-- Witness for C1 at a concrete int32 array. -/
theorem vsort_spec_witness :
    (∀ x ∈ ([3, -1, 2] : List Int), int32min ≤ x ∧ x ≤ int32max) ∧
    ((vsort defaultThresholds ⟨8, 4, 32768, 4194304, 64, true, 16⟩ true
        [3, -1, 2]).Sorted (· ≤ ·) ∧
      (vsort defaultThresholds ⟨8, 4, 32768, 4194304, 64, true, 16⟩ true
        [3, -1, 2]).Perm [3, -1, 2]) :=
  ⟨by decide, vsort_spec defaultThresholds ⟨8, 4, 32768, 4194304, 64, true, 16⟩
    true [3, -1, 2] (by decide)⟩

/-- C2: `radix_sort_int` (with its two allocation oracles) sorts every int32
array — including negative values and the full int32 range — into a
permutation in ascending order; and whenever the value range exceeds
`UINT_MAX` (min negative, `max − min > UINT_MAX`) it performs no radix
passes but falls back to the comparison sort on the whole array. -/
theorem radix_sort_int_claim (t : VsortThresholds) (okT okO : Bool) (arr : List Int) :
    ((∀ x ∈ arr, int32min ≤ x ∧ x ≤ int32max) →
      (radix_sort_intA t okT okO arr).Sorted (· ≤ ·) ∧
      (radix_sort_intA t okT okO arr).Perm arr) ∧
    (1 < arr.length → okT = true → radixMinV arr < 0 →
      (UINT_MAX : Int) < radixMaxV arr - radixMinV arr →
      radix_sort_intA t okT okO arr = quicksort_int t arr 0 (arr.length - 1)) := by
  constructor
  · intro h32
    exact radix_sort_intA_spec t okT okO arr h32
  · intro h1 h2 h3 h4
    rw [radix_sort_intA, if_neg (by omega), if_neg (by simp [h2]), if_pos ⟨h3, h4⟩]

/-- Witness for C2: a negative-value int32 array on the radix path, and an
out-of-range array on the fallback path. -/
theorem radix_sort_int_claim_witness :
    ((radix_sort_intA defaultThresholds true true [2, -3, 1]).Sorted (· ≤ ·) ∧
      (radix_sort_intA defaultThresholds true true [2, -3, 1]).Perm [2, -3, 1]) ∧
    radix_sort_intA defaultThresholds true true [0, -1, 4294967295] =
      quicksort_int defaultThresholds [0, -1, 4294967295] 0 2 :=
  ⟨(radix_sort_int_claim defaultThresholds true true [2, -3, 1]).1 (by decide),
   (radix_sort_int_claim defaultThresholds true true [0, -1, 4294967295]).2
      (by decide) rfl (by decide) (by decide)⟩

/-- C3: on every int32 input the parallel path (chunk sorts followed by
width-doubling merge rounds, sequentialised) returns exactly the same array
as the sequential path. -/
theorem parallel_sequential_equiv (t : VsortThresholds) (hw : VsortHardware)
    (ok : Bool) (arr : List Int)
    (h32 : ∀ x ∈ arr, int32min ≤ x ∧ x ≤ int32max) :
    vsort_parallel_intA t hw ok arr = vsort_sequential_int t arr := by
  obtain ⟨s1, p1⟩ := vsort_parallel_intA_spec t hw ok arr h32
  obtain ⟨s2, p2⟩ := vsort_sequential_int_spec t arr h32
  exact List.eq_of_perm_of_sorted (p1.trans p2.symm) s1 s2

/-- Witness for C3 at a concrete int32 array. -/
theorem parallel_sequential_equiv_witness :
    vsort_parallel_intA defaultThresholds ⟨8, 4, 32768, 4194304, 64, true, 16⟩ true
      [5, -2, 9] = vsort_sequential_int defaultThresholds [5, -2, 9] :=
  parallel_sequential_equiv defaultThresholds ⟨8, 4, 32768, 4194304, 64, true, 16⟩
    true [5, -2, 9] (by decide)

/-- C6: allocation failure of any internal scratch buffer (radix `temp_arr`,
radix `output`, parallel merge `temp`) surfaces no error: the sort
downgrades (radix → quicksort, parallel → sequential) and the array is
still a sorted permutation on return. -/
theorem alloc_failure_downgrade (t : VsortThresholds) (hw : VsortHardware)
    (okO okT : Bool) (arr : List Int) :
    ((radix_sort_intA t false okO arr).Sorted (· ≤ ·) ∧
      (radix_sort_intA t false okO arr).Perm arr) ∧
    ((radix_sort_intA t okT false arr).Sorted (· ≤ ·) ∧
      (radix_sort_intA t okT false arr).Perm arr) ∧
    (vsort_parallel_intA t hw false arr = vsort_sequential_int t arr ∧
      ((∀ x ∈ arr, int32min ≤ x ∧ x ≤ int32max) →
        (vsort_parallel_intA t hw false arr).Sorted (· ≤ ·) ∧
        (vsort_parallel_intA t hw false arr).Perm arr)) := by
  have heq : vsort_parallel_intA t hw false arr = vsort_sequential_int t arr := by
    rw [vsort_parallel_intA]
    split
    · rfl
    · rw [if_pos rfl]
  refine ⟨?_, ?_, heq, ?_⟩
  · rw [radix_sort_intA]
    split <;> rename_i h1
    · exact ⟨length_le_one_sorted arr h1, List.Perm.refl _⟩
    · rw [if_pos rfl]
      exact quicksort_int_sorts t arr (by intro hc; rw [hc] at h1; simp at h1)
  · rw [radix_sort_intA]
    split <;> rename_i h1
    · exact ⟨length_le_one_sorted arr h1, List.Perm.refl _⟩
    · have hne : arr ≠ [] := by intro hc; rw [hc] at h1; simp at h1
      split <;> rename_i h2
      · exact quicksort_int_sorts t arr hne
      · split <;> rename_i h3
        · exact quicksort_int_sorts t arr hne
        · rw [if_pos rfl]
          exact quicksort_int_sorts t arr hne
  · intro h32
    rw [heq]
    exact vsort_sequential_int_spec t arr h32

/-- Witness for C6 at a concrete int32 array. -/
theorem alloc_failure_downgrade_witness :
    ((radix_sort_intA defaultThresholds false true [7, -1, 3]).Sorted (· ≤ ·) ∧
      (radix_sort_intA defaultThresholds false true [7, -1, 3]).Perm [7, -1, 3]) ∧
    ((radix_sort_intA defaultThresholds true false [7, -1, 3]).Sorted (· ≤ ·) ∧
      (radix_sort_intA defaultThresholds true false [7, -1, 3]).Perm [7, -1, 3]) ∧
    (vsort_parallel_intA defaultThresholds ⟨8, 4, 32768, 4194304, 64, true, 16⟩
        false [7, -1, 3] = vsort_sequential_int defaultThresholds [7, -1, 3] ∧
      ((vsort_parallel_intA defaultThresholds ⟨8, 4, 32768, 4194304, 64, true, 16⟩
          false [7, -1, 3]).Sorted (· ≤ ·) ∧
        (vsort_parallel_intA defaultThresholds ⟨8, 4, 32768, 4194304, 64, true, 16⟩
          false [7, -1, 3]).Perm [7, -1, 3])) := by
  have h := alloc_failure_downgrade defaultThresholds
    ⟨8, 4, 32768, 4194304, 64, true, 16⟩ true true [7, -1, 3]
  exact ⟨h.1, h.2.1, h.2.2.1, h.2.2.2 (by decide)⟩

/-- Counterexample to C4: a sorted 20-element array — so of length < 32 —
is classified nearly sorted (`true`), though the claim requires `false`
whenever n < 32. -/
theorem nearly_sorted_small_counterexample :
    vsort_is_nearly_sorted_int (List.replicate 20 0) = true ∧
    (List.replicate 20 (0 : Int)).length < 32 := by
  constructor
  · decide
  · decide

/-- C5 (amended): every popped segment smaller than `insertion_threshold`
is finished by insertion sort; there is no depth budget and no heapsort —
the only other mechanisms are partitioning and the stack-capacity insertion
fallback (see the accompanying counterexample for the depth bound). -/
theorem quicksort_small_segment_insertion (t : VsortThresholds) (ok : Bool)
    (arr : List Int) (low high : Nat) (h1 : low < high)
    (h2 : high + 1 - low < t.insertion_threshold) :
    quicksort_intA t ok arr low high = insertion_sort_int arr low high := by
  rw [quicksort_intA, if_neg (by omega), if_pos h2]

/-- Witness for the C5 amended theorem at a concrete small segment. -/
theorem quicksort_small_segment_insertion_witness :
    (0 : Nat) < 1 ∧ 1 + 1 - 0 < defaultThresholds.insertion_threshold ∧
    quicksort_intA defaultThresholds true [9, 4] 0 1 =
      insertion_sort_int [9, 4] 0 1 :=
  ⟨by decide, by decide,
    quicksort_small_segment_insertion defaultThresholds true [9, 4] 0 1
      (by decide) (by decide)⟩

/-- Counterexample to C5: with `insertion_threshold = 8` (the calibrator's
output for a 32-byte cache line) the iterative quicksort performs a
partition at nesting depth `10 = 2⌊log2 33⌋` on a 33-element adversarial
input — so no `2⌊log2 n⌋` depth budget is enforced and the claimed heapsort
switch does not exist (the code contains no heapsort). -/
theorem quicksort_depth_counterexample :
    10 ≤ qsMaxPartDepth ⟨8, 64, 150000, 500000, 8192⟩
      [32, 3, 0, 6, 4, 11, 13, 21, 12, 16, 31, 19, 22, 30, 20, 25, 29, 26,
       9, 8, 5, 1, 2, 7, 10, 14, 15, 17, 18, 23, 24, 27, 28] 0 32 ∧
    ([32, 3, 0, 6, 4, 11, 13, 21, 12, 16, 31, 19, 22, 30, 20, 25, 29, 26,
       9, 8, 5, 1, 2, 7, 10, 14, 15, 17, 18, 23, 24, 27, 28] : List Int).length = 33 ∧
    2 * Nat.log2 33 = 10 := by
  refine ⟨by decide, rfl, ?_⟩
  have h5 : Nat.log2 33 = 5 := by
    rw [Nat.log2_eq_log_two]
    exact Nat.log_eq_of_pow_le_of_lt_pow (by norm_num) (by norm_num)
  rw [h5]

/-- C7 (amended): the spec-modelled dispatcher returns InvalidArgument
exactly for the two validation failures (null data with nonzero length, or
a Generic request without comparator or with zero element size); every
request passing validation with count ≤ 1 returns Ok with the data
untouched. -/
theorem vsort_sort_validation (t : VsortThresholds) (req : VsortRequest) :
    ((vsort_sort t req).1 = VsortResult.errInvalidArgument ↔
      (req.dataNull = true ∧ req.length ≠ 0) ∨
      (req.kind = VsortKind.generic ∧
        (req.hasComparator = false ∨ req.element_size = 0))) ∧
    ((¬(req.dataNull = true ∧ req.length ≠ 0)) →
      (¬(req.kind = VsortKind.generic ∧
        (req.hasComparator = false ∨ req.element_size = 0))) →
      req.length ≤ 1 → vsort_sort t req = (VsortResult.ok, req.data)) := by
  constructor
  · by_cases h1 : req.dataNull = true ∧ req.length ≠ 0
    · rw [vsort_sort, if_pos h1]
      exact ⟨fun _ => Or.inl h1, fun _ => rfl⟩
    · by_cases h2 : req.kind = VsortKind.generic ∧
          (req.hasComparator = false ∨ req.element_size = 0)
      · rw [vsort_sort, if_neg h1, if_pos h2]
        exact ⟨fun _ => Or.inr h2, fun _ => rfl⟩
      · have hok : (vsort_sort t req).1 = VsortResult.ok := by
          rw [vsort_sort, if_neg h1, if_neg h2]
          split <;> rename_i h3
          · rfl
          · cases req.kind <;> rfl
        rw [hok]
        constructor
        · intro hcon
          exact absurd hcon (by decide)
        · intro hor
          rcases hor with h | h
          · exact absurd h h1
          · exact absurd h h2
  · intro h1 h2 h3
    rw [vsort_sort, if_neg h1, if_neg h2, if_pos h3]

/-- Witness for the C7 amended theorem on a valid single-element request. -/
theorem vsort_sort_validation_witness :
    vsort_sort defaultThresholds
      ⟨false, [5], 1, 4, VsortKind.int32, false, fun _ _ => true⟩ =
      (VsortResult.ok, [5]) :=
  (vsort_sort_validation defaultThresholds
    ⟨false, [5], 1, 4, VsortKind.int32, false, fun _ _ => true⟩).2
    (by decide) (by decide) (by decide)

/-- Counterexample to C7 as stated: a request with null data and count 1
must return Ok by the claim's second part, but validation (which the claim
also asserts, with "exactly when") yields InvalidArgument. -/
theorem vsort_sort_count_one_counterexample :
    (vsort_sort defaultThresholds
      ⟨true, [], 1, 4, VsortKind.int32, false, fun _ _ => true⟩).1 =
      VsortResult.errInvalidArgument ∧ (1 : Nat) ≤ 1 := by
  constructor
  · rfl
  · decide

/-- C8 (amended): calibration is a pure function of the profile yielding
strictly positive insertion, vector, parallel and radix thresholds for
every profile; `cache_optimal_elements` however is positive iff the
detected L1 size is 0 (fallback 8192) or at least 4 bytes. -/
theorem calibrate_thresholds_claim (hw : VsortHardware) :
    0 < (vsort_calibrate_thresholds hw).insertion_threshold ∧
    0 < (vsort_calibrate_thresholds hw).vector_threshold ∧
    0 < (vsort_calibrate_thresholds hw).parallel_threshold ∧
    0 < (vsort_calibrate_thresholds hw).radix_threshold ∧
    (0 < (vsort_calibrate_thresholds hw).cache_optimal_elements ↔
      (hw.l1_cache_size = 0 ∨ 4 ≤ hw.l1_cache_size)) := by
  rw [vsort_calibrate_thresholds]
  dsimp only
  refine ⟨?_, ?_, ?_, ?_, ?_⟩
  · split_ifs <;> omega
  · split_ifs <;> omega
  · simp only [calibParallel, calibParallelBase]
    split_ifs <;> omega
  · split_ifs <;> omega
  · split_ifs <;> omega

/-- Counterexample to C8 as stated: a profile with a detected 2-byte L1
cache yields `cache_optimal_elements = 0`, not a strictly positive value. -/
theorem calibrate_cache_zero_counterexample :
    (vsort_calibrate_thresholds ⟨8, 4, 2, 4194304, 64, true, 16⟩).cache_optimal_elements
      = 0 := by
  decide

/-- C9: the quicksort work stack, including the popped range, never exceeds
1024 ranges (2048 ints, its capacity) on any input, thanks to the 4-int
headroom check; and when the stack allocation itself fails the whole call
degrades to insertion sort, still returning a sorted permutation. -/
theorem quicksort_stack_safety (t : VsortThresholds) (arr : List Int)
    (low high : Nat) (hne : arr ≠ []) :
    qsLoopMS t (high + 2 - low) arr [(low, high)] ≤ 1024 ∧
    (quicksort_intA t false arr 0 (arr.length - 1)).Sorted (· ≤ ·) ∧
    (quicksort_intA t false arr 0 (arr.length - 1)).Perm arr := by
  have hlen : arr.length ≠ 0 := fun h => hne (List.length_eq_zero.mp h)
  obtain ⟨l1, p1, _, s1⟩ := quicksort_intA_spec t false arr 0 (arr.length - 1)
    (by omega)
  refine ⟨qsLoopMS_bound t _ arr _ (by simp), sorted_of_slice_all _ ?_, p1⟩
  rw [l1]
  exact s1

/-- Witness for C9 at a concrete array. -/
theorem quicksort_stack_safety_witness :
    ([4, 2] : List Int) ≠ [] ∧
    (qsLoopMS defaultThresholds (1 + 2 - 0) [4, 2] [(0, 1)] ≤ 1024 ∧
      (quicksort_intA defaultThresholds false [4, 2]
        0 (([4, 2] : List Int).length - 1)).Sorted (· ≤ ·) ∧
      (quicksort_intA defaultThresholds false [4, 2]
        0 (([4, 2] : List Int).length - 1)).Perm [4, 2]) :=
  ⟨by decide, quicksort_stack_safety defaultThresholds [4, 2] 0 1 (by decide)⟩

/-- C10: `vsort_char` orders by unsigned byte value: for every char array
(signed char range) the result is a permutation, non-decreasing in the
0..255 byte interpretation, and every negative char (byte 128..255) is
placed after all non-negative chars. -/
theorem vsort_char_claim (arr : List Int)
    (hchar : ∀ x ∈ arr, -128 ≤ x ∧ x ≤ 127) :
    (vsort_char arr).Perm arr ∧
    (vsort_char arr).Pairwise (fun a b => ucharOf a ≤ ucharOf b) ∧
    (∀ i j, i < j → j < (vsort_char arr).length →
      getI (vsort_char arr) i < 0 → getI (vsort_char arr) j < 0) := by
  rw [vsort_char]
  split <;> rename_i h1
  · refine ⟨List.Perm.refl _, ?_, ?_⟩
    · rcases arr with _ | ⟨x, _ | ⟨y, rest⟩⟩
      · exact List.Pairwise.nil
      · exact List.pairwise_singleton _ _
      · simp at h1
    · intro i j hij hj hneg
      omega
  · have htot : ∀ a b : Int, (default_char_comparator a b ≤ 0 : Bool) = true ∨
        (default_char_comparator b a ≤ 0 : Bool) = true := by
      intro a b
      simp only [decide_eq_true_eq, default_char_comparator, ucharOf]
      omega
    have htrans : ∀ a b c : Int, (default_char_comparator a b ≤ 0 : Bool) = true →
        (default_char_comparator b c ≤ 0 : Bool) = true →
        (default_char_comparator a c ≤ 0 : Bool) = true := by
      intro a b c
      simp only [decide_eq_true_eq, default_char_comparator, ucharOf]
      omega
    have hperm := qsortModel_perm
      (fun a b => (default_char_comparator a b ≤ 0 : Bool)) arr
    have hpair := qsortModel_pairwise
      (fun a b => (default_char_comparator a b ≤ 0 : Bool)) htot htrans arr
    have hpair2 : (qsortModel
        (fun a b => (default_char_comparator a b ≤ 0 : Bool)) arr).Pairwise
        (fun a b => ucharOf a ≤ ucharOf b) := by
      refine hpair.imp ?_
      intro a b hab
      simp only [decide_eq_true_eq, default_char_comparator] at hab
      omega
    refine ⟨hperm, hpair2, ?_⟩
    intro i j hij hj hneg
    have hlen : (qsortModel
        (fun a b => (default_char_comparator a b ≤ 0 : Bool)) arr).length =
        arr.length := hperm.length_eq
    have hx : getI (qsortModel
        (fun a b => (default_char_comparator a b ≤ 0 : Bool)) arr) i ∈ arr := by
      refine hperm.subset ?_
      rw [getI_eq_getElem _ _ (by omega)]
      exact List.getElem_mem _
    have hy : getI (qsortModel
        (fun a b => (default_char_comparator a b ≤ 0 : Bool)) arr) j ∈ arr := by
      refine hperm.subset ?_
      rw [getI_eq_getElem _ _ hj]
      exact List.getElem_mem _
    obtain ⟨hx1, hx2⟩ := hchar _ hx
    obtain ⟨hy1, hy2⟩ := hchar _ hy
    rw [List.pairwise_iff_getElem] at hpair2
    have hord := hpair2 i j (by omega) (by omega) hij
    rw [← getI_eq_getElem _ i (by omega), ← getI_eq_getElem _ j (by omega)] at hord
    simp only [ucharOf] at hord
    omega

/-- Witness for C10 at a concrete char array with negative values. -/
theorem vsort_char_claim_witness :
    (∀ x ∈ ([-3, 5, -1, 0] : List Int), -128 ≤ x ∧ x ≤ 127) ∧
    ((vsort_char [-3, 5, -1, 0]).Perm [-3, 5, -1, 0] ∧
      (vsort_char [-3, 5, -1, 0]).Pairwise (fun a b => ucharOf a ≤ ucharOf b) ∧
      (∀ i j, i < j → j < (vsort_char [-3, 5, -1, 0]).length →
        getI (vsort_char [-3, 5, -1, 0]) i < 0 →
        getI (vsort_char [-3, 5, -1, 0]) j < 0)) :=
  ⟨by decide, vsort_char_claim [-3, 5, -1, 0] (by decide)⟩

end VSort
